import Mathlib

/-! Web scraper with text cipher: a verification development.

Shallow embedding of `src/server.js`:

* `scrapeWebsite`  — the fetch loop over the three user agents,
* `scrapeCatch`    — the `catch` block of the `/api/scrape` route,
* `extractText`    — main-content selection, clean-up, composition, cut, word count,
* `encrypt` / `decrypt` — the AES-256-CBC text cipher.

JavaScript strings are sequences of UTF-16 code units, so a string is a list
of code units here: `length` is `List.length`, `substring(0, n)` is
`List.take n`, and concatenation is `++`.  Human-readable messages (error
texts, log lines) that the program never inspects are Lean strings.
-/

namespace WebScraper

/-- A JavaScript string: its UTF-16 code units. -/
abbrev JSString := List Nat

/-- The code units of an ASCII literal of the source. -/
def lit (s : String) : JSString := s.toList.map Char.toNat

/-! ## Errors -/

/-- The part of an HTTP response the route inspects: `error.response.status`. -/
structure HttpResponse where
  status : Nat
deriving DecidableEq, Repr

/-- A thrown JavaScript error object, with the three properties the program
reads: `message`, `code` (absent on most errors) and `response` (present on an
axios error that carries an HTTP reply). -/
structure JSError where
  message : String
  code : Option String
  response : Option HttpResponse
deriving DecidableEq, Repr

/-- How a call of a function ends: it returns a value, it returns nothing
(falls off its end, the caller sees `undefined`), or it throws. -/
inductive Completion (α : Type) where
  | returned (value : α)
  | returnedUndefined
  | threw (error : JSError)
deriving DecidableEq, Repr

/-! ## Fetcher: `scrapeWebsite` (server.js 72-114) -/

/-- Outcome of one `axios.get` call: it throws, or it resolves to a response
whose `data` is the body. -/
inductive Outcome where
  | threw (error : JSError)
  | responded (data : JSString)
deriving DecidableEq, Repr

/-- The `userAgents` array of `scrapeWebsite`. -/
def userAgents : List String :=
  ["Mozilla/5.0 (Windows NT 10.0; Win64; x64) AppleWebKit/537.36 (KHTML, like Gecko) Chrome/120.0.0.0 Safari/537.36",
   "Mozilla/5.0 (Macintosh; Intel Mac OS X 10_15_7) AppleWebKit/537.36 (KHTML, like Gecko) Chrome/120.0.0.0 Safari/537.36",
   "Mozilla/5.0 (X11; Linux x86_64) AppleWebKit/537.36 (KHTML, like Gecko) Chrome/120.0.0.0 Safari/537.36"]

/-- Truthiness of a string value (`if (response.data)`): non-empty. -/
def truthy (s : JSString) : Bool := !s.isEmpty

/-- The `for (let i = 0; i < userAgents.length; i++)` loop from index `i` on;
the list argument is `userAgents` from position `i`.  `get i ua` is the outcome
of the `axios.get` of attempt `i`, sent with user agent `ua`.  The result is
how the function ends and the indices of the attempts made, in order. -/
def scrapeLoop (get : Nat → String → Outcome) (len : Nat) :
    Nat → List String → Completion JSString × List Nat
  | _, [] => (.returnedUndefined, [])
  | i, ua :: rest =>
    match get i ua with
    | .responded data =>
      if truthy data then (.returned data, [i])
      else
        let r := scrapeLoop get len (i + 1) rest
        (r.1, i :: r.2)
    | .threw error =>
      if i = len - 1 then (.threw error, [i])
      else
        let r := scrapeLoop get len (i + 1) rest
        (r.1, i :: r.2)

/-- The function `scrapeWebsite(url)`: completion and attempts made. -/
def scrapeWebsite (get : Nat → String → Outcome) : Completion JSString × List Nat :=
  scrapeLoop get userAgents.length 0 userAgents

/-! ## The `catch` block of `POST /api/scrape` (server.js 237-268) -/

/-- The JSON body (and HTTP status) the route sends from its `catch` block. -/
structure ErrorReply where
  httpStatus : Nat
  success : Bool
  error : String
  details : String
  suggestions : List String
deriving DecidableEq, Repr

/-- The value of `error.response?.status`. -/
def responseStatus (error : JSError) : Option Nat := error.response.map (·.status)

/-- The `catch (error)` block of the route. -/
def scrapeCatch (error : JSError) : ErrorReply :=
  let errorMessage :=
    if error.code = some "ENOTFOUND" then
      "Website not found. Please check the URL."
    else if error.code = some "ECONNREFUSED" then
      "Connection refused. The website is not accessible."
    else if error.code = some "ETIMEDOUT" then
      "Request timed out. The website is taking too long to respond."
    else if responseStatus error = some 403 then
      "Access forbidden. The website is blocking scraping requests."
    else if responseStatus error = some 404 then
      "Page not found (404). Please check the URL."
    else if responseStatus error = some 429 then
      "Too many requests. The website is rate limiting."
    else
      "Failed to scrape website"
  let errorDetails := error.message
  { httpStatus := 500
    success := false
    error := errorMessage
    details := errorDetails
    suggestions :=
      ["Make sure the URL is correct and includes http:// or https://",
       "Some websites block automated scraping",
       "Try a different website (e.g., https://example.com)",
       "The website might require JavaScript rendering"] }

/-! ## ContentExtractor: `extractText` (server.js 117-185) -/

/-- What `extractText` reads from the document `$` once the two `remove()`
calls have stripped it: for a selector, the text of its matches; the text of
its first match; and an attribute of its first match. -/
structure Document where
  /-- `$(selector)`: `none` when `$(selector).length` is 0, else `$(selector).text()`. -/
  text : String → Option JSString
  /-- `$(selector).first().text()`, the empty string when nothing matches. -/
  firstText : String → JSString
  /-- `$(selector).attr(name)`, `none` for `undefined`. -/
  attr : String → String → Option JSString

/-- The `contentSelectors` array. -/
def contentSelectors : List String :=
  ["main", "article", "[role=\"main\"]", ".content", ".main-content",
   "#content", "#main", ".post-content", ".article-content", "body"]

/-- The characters `\s` matches and `trim()` strips: WhiteSpace and
LineTerminator of ECMAScript. -/
def isWhitespace (c : Nat) : Bool :=
  c == 9 || c == 10 || c == 11 || c == 12 || c == 13 || c == 32 || c == 0xA0 ||
  c == 0x1680 || (0x2000 ≤ c && c ≤ 0x200A) || c == 0x2028 || c == 0x2029 ||
  c == 0x202F || c == 0x205F || c == 0x3000 || c == 0xFEFF

/-- The character `\n`. -/
def isNewline (c : Nat) : Bool := c == 10

/-- The call `s.replace(/p+/g, r)` for a one-character class `p`: every maximal
run of `p` characters becomes `r`.  The flag says whether the character before
was part of a run already replaced. -/
def replaceRuns (p : Nat → Bool) (r : JSString) : Bool → JSString → JSString
  | _, [] => []
  | inRun, c :: cs =>
    if p c then
      if inRun then replaceRuns p r true cs else r ++ replaceRuns p r true cs
    else c :: replaceRuns p r false cs

/-- The call `s.split(/p+/)` for a one-character class `p`: the pieces between
the maximal runs of `p` characters, an empty piece before a leading run and
after a trailing run included; `"".split(/p+/)` is `[""]`. -/
def splitRuns (p : Nat → Bool) : Bool → JSString → List JSString
  | _, [] => [[]]
  | inRun, c :: cs =>
    if p c then
      if inRun then splitRuns p true cs else [] :: splitRuns p true cs
    else
      match splitRuns p false cs with
      | [] => [[c]]
      | w :: ws => (c :: w) :: ws

/-- The method `trim()`. -/
def trim (s : JSString) : JSString :=
  (s.dropWhile isWhitespace).rdropWhile isWhitespace

/-- The operator `a || b` on strings. -/
def orElse (a b : JSString) : JSString := if truthy a then a else b

/-- The operator `a || b` when `a` may be `undefined`. -/
def orElseUndef (a : Option JSString) (b : JSString) : JSString :=
  match a with
  | some s => orElse s b
  | none => b

/-- The `for (const selector of contentSelectors)` loop: `text` is the
variable `text` on entry, the list the selectors still to visit. -/
def selectLoop (doc : Document) : JSString → List String → JSString
  | text, [] => text
  | text, selector :: rest =>
    match doc.text selector with
    | some t => if t.length > 100 then t else selectLoop doc t rest
    | none => selectLoop doc text rest

/-- The value of `$('body').text()`. -/
def bodyText (doc : Document) : JSString := (doc.text "body").getD []

/-- The raw text chosen: the loop, then the fallback
`if (!text || text.length < 100) text = $('body').text()`. -/
def chooseText (doc : Document) : JSString :=
  let text := selectLoop doc [] contentSelectors
  if !truthy text || text.length < 100 then bodyText doc else text

/-- The clean-up: `.replace(/\s+/g, ' ').replace(/\n+/g, '\n').trim()`. -/
def cleanText (text : JSString) : JSString :=
  trim (replaceRuns isNewline (lit "\n") false (replaceRuns isWhitespace (lit " ") false text))

/-- The page title. -/
def pageTitle (doc : Document) : JSString :=
  orElse (trim ((doc.text "title").getD [])) (orElse (trim (doc.firstText "h1")) (lit "Untitled"))

/-- The meta description. -/
def pageDescription (doc : Document) : JSString :=
  orElseUndef (doc.attr "meta[name=\"description\"]" "content")
    (orElseUndef (doc.attr "meta[property=\"og:description\"]" "content") [])

/-- The template literal for `fullText`. -/
def compose (title description text : JSString) : JSString :=
  lit "Title: " ++ title ++ lit "\n\nDescription: " ++ description ++ lit "\n\n" ++ text

/-- The object `extractText` returns. -/
structure ExtractionResult where
  text : JSString
  title : JSString
  description : JSString
  wordCount : Nat
deriving DecidableEq, Repr

/-- The function `extractText(html, url)`, on the stripped document. -/
def extractText (doc : Document) : ExtractionResult :=
  let text := cleanText (chooseText doc)
  let title := pageTitle doc
  let description := pageDescription doc
  let fullText := compose title description text
  let limitedText := fullText.take 10000
  { text := limitedText
    title := title
    description := description
    wordCount := (splitRuns isWhitespace false limitedText).length }

/-! ### Reference notions the claims are stated with -/

/-- The whitespace-delimited tokens of a text: its maximal runs of
non-whitespace characters. -/
def tokens (s : JSString) : List JSString :=
  (s.splitOnP isWhitespace).filter (fun w => !w.isEmpty)

/-- Tokens joined by single spaces. -/
def joinBySpace (ts : List JSString) : JSString := (lit " ").intercalate ts

/-- The text of a selector when it matches with a text of at least 100
characters. -/
def longText (doc : Document) (sel : String) : Option JSString :=
  (doc.text sel).filter (fun t => 100 ≤ t.length)

/-- The selection rule as the specification words it: the text of the first
selector, in order, that matches with a text of at least 100 characters, and
the body text when there is none. -/
def chosenBySpec (doc : Document) : JSString :=
  match contentSelectors.filterMap (longText doc) with
  | t :: _ => t
  | [] => bodyText doc

/-- A document given by association lists, for concrete examples. -/
def docOfLists (texts : List (String × JSString)) (firsts : List (String × JSString))
    (attrs : List ((String × String) × JSString)) : Document :=
  { text := fun sel => texts.lookup sel
    firstText := fun sel => (firsts.lookup sel).getD []
    attr := fun sel name => attrs.lookup (sel, name) }

/-! ## TextCipher: `encrypt` and `decrypt` (server.js 39-69)

Bytes are natural numbers below 256, buffers are lists of bytes.  The
program's own string handling, the hex and UTF-8 codecs, the CBC chaining, the
PKCS padding and the buffering done by `update` and `final` are modelled over
the three primitives of Node's `crypto` module that the program calls: the
SHA-256 digest, the random source and the AES-256 block transformation.  They
are a parameter of the model (`Crypto`); `nodeCrypto` further down is the
instance with SHA-256 and AES-256 written out. -/

/-- The constant `ALGORITHM`. -/
def ALGORITHM : String := "aes-256-cbc"

/-- The constant `IV_LENGTH`. -/
def IV_LENGTH : Nat := 16

/-- The block size of AES, in bytes. -/
def blockSize : Nat := 16

/-- The key size of AES-256, in bytes. -/
def keySize : Nat := 32

/-- The primitives of Node's `crypto` module. -/
structure Crypto where
  /-- `crypto.createHash('sha256').update(data).digest()`. -/
  sha256 : List Nat → List Nat
  /-- `crypto.randomBytes(n)`. -/
  randomBytes : Nat → List Nat
  /-- AES-256 on one block: `encryptBlock key block`. -/
  encryptBlock : List Nat → List Nat → List Nat
  /-- The inverse AES-256 transformation on one block. -/
  decryptBlock : List Nat → List Nat → List Nat

/-- A buffer: all elements are bytes. -/
def IsBytes (bs : List Nat) : Prop := ∀ b ∈ bs, b < 256

instance (bs : List Nat) : Decidable (IsBytes bs) := by
  unfold IsBytes
  infer_instance

/-- What the program relies on from the primitives: a digest has 32 bytes,
`randomBytes(n)` has `n` bytes, and under a 32-byte key a block of 16 bytes is
encrypted to a block of 16 bytes that the inverse transformation maps back. -/
structure Crypto.Lawful (C : Crypto) : Prop where
  digest_length : ∀ data, (C.sha256 data).length = keySize
  digest_bytes : ∀ data, IsBytes (C.sha256 data)
  random_length : ∀ n, (C.randomBytes n).length = n
  random_bytes : ∀ n, IsBytes (C.randomBytes n)
  block_encrypted : ∀ key block, key.length = keySize → IsBytes key →
    block.length = blockSize → IsBytes block →
    (C.encryptBlock key block).length = blockSize ∧ IsBytes (C.encryptBlock key block)
  block_restored : ∀ key block, key.length = keySize → IsBytes key →
    block.length = blockSize → IsBytes block →
    C.decryptBlock key (C.encryptBlock key block) = block

/-! ### Hex codec (`'hex'` encoding of Node buffers) -/

/-- The lowercase hex digit of a value below 16, as a code unit. -/
def hexDigit (d : Nat) : Nat := if d < 10 then 48 + d else 87 + d

/-- The call `buffer.toString('hex')`: two lowercase digits per byte. -/
def hexEncode : List Nat → JSString
  | [] => []
  | b :: bs => hexDigit (b / 16) :: hexDigit (b % 16) :: hexEncode bs

/-- The value of a hex digit, either case; `none` for any other code unit. -/
def hexValue (c : Nat) : Option Nat :=
  if 48 ≤ c ∧ c ≤ 57 then some (c - 48)
  else if 97 ≤ c ∧ c ≤ 102 then some (c - 87)
  else if 65 ≤ c ∧ c ≤ 70 then some (c - 55)
  else none

/-- Node's decoding of a `'hex'` string (`Buffer.from(s, 'hex')`): pairs of
digits are decoded until the first pair that is not two hex digits; a single
trailing character is dropped.  It never throws. -/
def hexDecode : JSString → List Nat
  | hi :: lo :: rest =>
    match hexValue hi, hexValue lo with
    | some h, some l => (16 * h + l) :: hexDecode rest
    | _, _ => []
  | _ => []

/-! ### UTF-8 codec (`'utf8'` encoding) -/

/-- A lead (high) surrogate code unit. -/
def isHighSurrogate (u : Nat) : Bool := 0xD800 ≤ u && u < 0xDC00

/-- A trail (low) surrogate code unit. -/
def isLowSurrogate (u : Nat) : Bool := 0xDC00 ≤ u && u < 0xE000

/-- UTF-8 bytes of one code point. -/
def utf8EncodeCodePoint (cp : Nat) : List Nat :=
  if cp < 0x80 then [cp]
  else if cp < 0x800 then [0xC0 + cp / 64, 0x80 + cp % 64]
  else if cp < 0x10000 then [0xE0 + cp / 4096, 0x80 + cp / 64 % 64, 0x80 + cp % 64]
  else [0xF0 + cp / 262144, 0x80 + cp / 4096 % 64, 0x80 + cp / 64 % 64, 0x80 + cp % 64]

/-- The bytes `EF BF BD` of U+FFFD, written for an unpaired surrogate. -/
def replacementBytes : List Nat := [0xEF, 0xBF, 0xBD]

/-- Encoding a string as UTF-8: a surrogate pair is one code point of four
bytes, an unpaired surrogate becomes U+FFFD. -/
def utf8Encode : JSString → List Nat
  | [] => []
  | [u] =>
    if isHighSurrogate u || isLowSurrogate u then replacementBytes else utf8EncodeCodePoint u
  | u :: v :: rest =>
    if isHighSurrogate u && isLowSurrogate v then
      utf8EncodeCodePoint (0x10000 + (u - 0xD800) * 1024 + (v - 0xDC00)) ++ utf8Encode rest
    else if isHighSurrogate u || isLowSurrogate u then
      replacementBytes ++ utf8Encode (v :: rest)
    else utf8EncodeCodePoint u ++ utf8Encode (v :: rest)

/-- A well-formed string: every code unit is below 0x10000 and surrogates come
in pairs, lead then trail. -/
def wellFormed : JSString → Bool
  | [] => true
  | [u] => !isHighSurrogate u && !isLowSurrogate u && decide (u < 0x10000)
  | u :: v :: rest =>
    if isHighSurrogate u then isLowSurrogate v && wellFormed rest
    else !isLowSurrogate u && decide (u < 0x10000) && wellFormed (v :: rest)

/-- A continuation byte, `80..BF`. -/
def isContinuation (b : Nat) : Bool := 0x80 ≤ b && b ≤ 0xBF

/-- The range allowed for the second byte after lead byte `b0` (three- and
four-byte forms): it excludes overlong forms, surrogates and code points above
U+10FFFF. -/
def secondByteOk (b0 b1 : Nat) : Bool :=
  if b0 = 0xE0 then 0xA0 ≤ b1 && b1 ≤ 0xBF
  else if b0 = 0xED then 0x80 ≤ b1 && b1 ≤ 0x9F
  else if b0 = 0xF0 then 0x90 ≤ b1 && b1 ≤ 0xBF
  else if b0 = 0xF4 then 0x80 ≤ b1 && b1 ≤ 0x8F
  else isContinuation b1

/-- The code units of a code point: itself, or a surrogate pair. -/
def codeUnits (cp : Nat) : JSString :=
  if cp < 0x10000 then [cp]
  else [0xD800 + (cp - 0x10000) / 1024, 0xDC00 + (cp - 0x10000) % 1024]

/-- Decoding UTF-8 into a string (`'utf8'` output encoding): the decoder of the
Encoding Standard, which writes U+FFFD for every maximal ill-formed part and
never throws. -/
def utf8Decode : List Nat → JSString
  | [] => []
  | b0 :: rest =>
    if b0 < 0x80 then b0 :: utf8Decode rest
    else if 0xC2 ≤ b0 ∧ b0 ≤ 0xDF then
      match rest with
      | [] => [0xFFFD]
      | b1 :: rest1 =>
        if isContinuation b1 then ((b0 - 0xC0) * 64 + (b1 - 0x80)) :: utf8Decode rest1
        else 0xFFFD :: utf8Decode (b1 :: rest1)
    else if 0xE0 ≤ b0 ∧ b0 ≤ 0xEF then
      match rest with
      | [] => [0xFFFD]
      | b1 :: rest1 =>
        if secondByteOk b0 b1 then
          match rest1 with
          | [] => [0xFFFD]
          | b2 :: rest2 =>
            if isContinuation b2 then
              ((b0 - 0xE0) * 4096 + (b1 - 0x80) * 64 + (b2 - 0x80)) :: utf8Decode rest2
            else 0xFFFD :: utf8Decode (b2 :: rest2)
        else 0xFFFD :: utf8Decode (b1 :: rest1)
    else if 0xF0 ≤ b0 ∧ b0 ≤ 0xF4 then
      match rest with
      | [] => [0xFFFD]
      | b1 :: rest1 =>
        if secondByteOk b0 b1 then
          match rest1 with
          | [] => [0xFFFD]
          | b2 :: rest2 =>
            if isContinuation b2 then
              match rest2 with
              | [] => [0xFFFD]
              | b3 :: rest3 =>
                if isContinuation b3 then
                  codeUnits ((b0 - 0xF0) * 262144 + (b1 - 0x80) * 4096 + (b2 - 0x80) * 64
                    + (b3 - 0x80)) ++ utf8Decode rest3
                else 0xFFFD :: utf8Decode (b3 :: rest3)
            else 0xFFFD :: utf8Decode (b2 :: rest2)
        else 0xFFFD :: utf8Decode (b1 :: rest1)
    else 0xFFFD :: utf8Decode rest

/-! ### Cipher objects: CBC chaining, buffering and PKCS padding -/

/-- The state of the object `createCipheriv` / `createDecipheriv` returns. -/
structure CipherState where
  /-- The key. -/
  key : List Nat
  /-- The chaining value: the IV, then the last ciphertext block. -/
  chain : List Nat
  /-- Input bytes not yet processed, fewer than a block. -/
  buf : List Nat
  /-- Decryption only: the last decrypted block, kept back by `update` because
  it may hold the padding. -/
  held : Option (List Nat)
deriving DecidableEq, Repr

/-- Bytewise exclusive or of two blocks. -/
def xorBytes (a b : List Nat) : List Nat := List.zipWith (· ^^^ ·) a b

/-- An error thrown by the library, with its message and code. -/
def libraryError (message code : String) : JSError :=
  { message := message, code := some code, response := none }

/-- The calls `crypto.createCipheriv(algorithm, key, iv)` and
`crypto.createDecipheriv(algorithm, key, iv)`: for `aes-256-cbc` the key must
have 32 bytes and the IV 16, else the call throws. -/
def createCipheriv (algorithm : String) (key iv : List Nat) : Except JSError CipherState :=
  if algorithm ≠ "aes-256-cbc" then
    .error (libraryError "Unknown cipher" "ERR_CRYPTO_UNKNOWN_CIPHER")
  else if key.length ≠ keySize then
    .error (libraryError "Invalid key length" "ERR_CRYPTO_INVALID_KEYLEN")
  else if iv.length ≠ blockSize then
    .error (libraryError "Invalid initialization vector" "ERR_CRYPTO_INVALID_IV")
  else .ok { key := key, chain := iv, buf := [], held := none }

/-- CBC encryption of the first `n` blocks of `data`: output and new chaining value. -/
def encryptBlocks (C : Crypto) (key : List Nat) : Nat → List Nat → List Nat → List Nat × List Nat
  | 0, chain, _ => ([], chain)
  | n + 1, chain, data =>
    let c := C.encryptBlock key (xorBytes (data.take blockSize) chain)
    let r := encryptBlocks C key n c (data.drop blockSize)
    (c ++ r.1, r.2)

/-- CBC decryption of the first `n` blocks of `data`: output and new chaining value. -/
def decryptBlocks (C : Crypto) (key : List Nat) : Nat → List Nat → List Nat → List Nat × List Nat
  | 0, chain, _ => ([], chain)
  | n + 1, chain, data =>
    let c := data.take blockSize
    let r := decryptBlocks C key n c (data.drop blockSize)
    (xorBytes (C.decryptBlock key c) chain ++ r.1, r.2)

/-- The method `cipher.update(data)`: every complete block of the pending input
is encrypted, the rest is kept. -/
def cipherUpdate (C : Crypto) (st : CipherState) (data : List Nat) : CipherState × List Nat :=
  let input := st.buf ++ data
  let n := input.length / blockSize
  let r := encryptBlocks C st.key n st.chain input
  ({ st with chain := r.2, buf := input.drop (blockSize * n) }, r.1)

/-- The method `cipher.final()`: the kept bytes are padded to a block with
`k` bytes of value `k`, `1 ≤ k ≤ 16`, and that block is encrypted. -/
def cipherFinal (C : Crypto) (st : CipherState) : List Nat :=
  let k := blockSize - st.buf.length
  C.encryptBlock st.key (xorBytes (st.buf ++ List.replicate k k) st.chain)

/-- The method `decipher.update(data)` on bytes: every complete block of the
pending input is decrypted; when no byte is left over, the last decrypted
block is kept back for `final`.  An empty `data` changes nothing. -/
def decipherUpdate (C : Crypto) (st : CipherState) (data : List Nat) : CipherState × List Nat :=
  if data.isEmpty then (st, [])
  else
    let input := st.buf ++ data
    let n := input.length / blockSize
    let r := decryptBlocks C st.key n st.chain input
    let plain := (st.held.getD []) ++ r.1
    let rest := input.drop (blockSize * n)
    if rest.isEmpty then
      ({ st with chain := r.2, buf := [], held := some (plain.drop (plain.length - blockSize)) },
        plain.take (plain.length - blockSize))
    else ({ st with chain := r.2, buf := rest, held := none }, plain)

/-- The method `decipher.final()`: it throws unless exactly one decrypted block
is kept back and no byte is pending, and unless that block ends in a valid
padding (`k` bytes of value `k`, `1 ≤ k ≤ 16`); it returns the block without
its padding. -/
def decipherFinal (st : CipherState) : Except JSError (List Nat) :=
  match st.held with
  | none => .error (libraryError "wrong final block length" "ERR_OSSL_WRONG_FINAL_BLOCK_LENGTH")
  | some block =>
    if !st.buf.isEmpty then
      .error (libraryError "wrong final block length" "ERR_OSSL_WRONG_FINAL_BLOCK_LENGTH")
    else
      let k := block.getLastD 0
      if k = 0 ∨ k > blockSize then
        .error (libraryError "bad decrypt" "ERR_OSSL_BAD_DECRYPT")
      else if (block.drop (blockSize - k)).all (· == k) then
        .ok (block.take (blockSize - k))
      else .error (libraryError "bad decrypt" "ERR_OSSL_BAD_DECRYPT")

/-- The call `decipher.update(data, 'hex', …)` with its argument checks:
`undefined` data throws (a `TypeError`), a hex string of odd length throws,
any other string is decoded by `hexDecode`. -/
def decipherUpdateHex (C : Crypto) (st : CipherState) (data : Option JSString) :
    Except JSError (CipherState × List Nat) :=
  match data with
  | none =>
    .error (libraryError "The \"data\" argument must be of type string or an instance of Buffer, TypedArray, or DataView. Received undefined" "ERR_INVALID_ARG_TYPE")
  | some hex =>
    if hex.length % 2 ≠ 0 then
      .error (libraryError "The argument 'encoding' is invalid for data of length" "ERR_INVALID_ARG_VALUE")
    else .ok (decipherUpdate C st (hexDecode hex))

/-- The call `s.split(sep)` for a one-character separator: the pieces between
all occurrences of `sep`; the result is never empty. -/
def jsSplit (sep : Nat) : JSString → List JSString
  | [] => [[]]
  | c :: cs =>
    if c = sep then [] :: jsSplit sep cs
    else
      match jsSplit sep cs with
      | [] => [[c]]
      | w :: ws => (c :: w) :: ws

/-- The function `encrypt(text, key)`. -/
def encrypt (C : Crypto) (text key : JSString) : Except JSError JSString :=
  let keyBuffer := C.sha256 (utf8Encode key)
  let iv := C.randomBytes IV_LENGTH
  match createCipheriv ALGORITHM keyBuffer iv with
  | .error e => .error e
  | .ok cipher =>
    let r := cipherUpdate C cipher (utf8Encode text)
    let encrypted := hexEncode r.2
    let encrypted := encrypted ++ hexEncode (cipherFinal C r.1)
    .ok (hexEncode iv ++ lit ":" ++ encrypted)

/-- The body of the `try` block of `decrypt(text, key)`.  The two pieces of
output text are produced by one streaming UTF-8 decoder, so their
concatenation is the decoding of the concatenated bytes. -/
def decryptTry (C : Crypto) (text key : JSString) : Except JSError JSString :=
  let keyBuffer := C.sha256 (utf8Encode key)
  let parts := jsSplit 58 text
  let iv := hexDecode (parts.headD [])
  let encryptedText := parts.get? 1
  match createCipheriv ALGORITHM keyBuffer iv with
  | .error e => .error e
  | .ok decipher =>
    match decipherUpdateHex C decipher encryptedText with
    | .error e => .error e
    | .ok r =>
      match decipherFinal r.1 with
      | .error e => .error e
      | .ok last => .ok (utf8Decode (r.2 ++ last))

/-- The error `decrypt` throws from its `catch` block. -/
def decryptionFailed : JSError :=
  { message := "Decryption failed. Invalid key or corrupted data.", code := none, response := none }

/-- The function `decrypt(text, key)`: whatever the `try` block throws is
replaced by one error. -/
def decrypt (C : Crypto) (text key : JSString) : Except JSError JSString :=
  match decryptTry C text key with
  | .ok decrypted => .ok decrypted
  | .error _ => .error decryptionFailed

/-! ### The primitives of Node's `crypto` module: SHA-256 and AES-256

`crypto.createHash('sha256')` is SHA-256 of FIPS 180-4 and the cipher
`aes-256-cbc` is built on the AES-256 block transformation of FIPS 197.  Both
are written out so that the model can be evaluated on concrete inputs.  Words
are natural numbers below `2 ^ 32`. -/

/-- The round constants of SHA-256. -/
def sha256RoundConstants : List Nat :=
  [0x428a2f98, 0x71374491, 0xb5c0fbcf, 0xe9b5dba5, 0x3956c25b, 0x59f111f1,
   0x923f82a4, 0xab1c5ed5, 0xd807aa98, 0x12835b01, 0x243185be, 0x550c7dc3,
   0x72be5d74, 0x80deb1fe, 0x9bdc06a7, 0xc19bf174, 0xe49b69c1, 0xefbe4786,
   0x0fc19dc6, 0x240ca1cc, 0x2de92c6f, 0x4a7484aa, 0x5cb0a9dc, 0x76f988da,
   0x983e5152, 0xa831c66d, 0xb00327c8, 0xbf597fc7, 0xc6e00bf3, 0xd5a79147,
   0x06ca6351, 0x14292967, 0x27b70a85, 0x2e1b2138, 0x4d2c6dfc, 0x53380d13,
   0x650a7354, 0x766a0abb, 0x81c2c92e, 0x92722c85, 0xa2bfe8a1, 0xa81a664b,
   0xc24b8b70, 0xc76c51a3, 0xd192e819, 0xd6990624, 0xf40e3585, 0x106aa070,
   0x19a4c116, 0x1e376c08, 0x2748774c, 0x34b0bcb5, 0x391c0cb3, 0x4ed8aa4a,
   0x5b9cca4f, 0x682e6ff3, 0x748f82ee, 0x78a5636f, 0x84c87814, 0x8cc70208,
   0x90befffa, 0xa4506ceb, 0xbef9a3f7, 0xc67178f2]

/-- The initial hash value of SHA-256. -/
def sha256InitialHash : List Nat :=
  [0x6a09e667, 0xbb67ae85, 0x3c6ef372, 0xa54ff53a,
   0x510e527f, 0x9b05688c, 0x1f83d9ab, 0x5be0cd19]

/-- Addition modulo `2 ^ 32`. -/
def add32 (a b : Nat) : Nat := (a + b) % 4294967296

/-- Rotation of a 32-bit word to the right. -/
def rotr32 (x n : Nat) : Nat := ((x >>> n) ||| (x <<< (32 - n))) % 4294967296

/-- The function Σ0 of SHA-256. -/
def bigSigma0 (x : Nat) : Nat := rotr32 x 2 ^^^ rotr32 x 13 ^^^ rotr32 x 22

/-- The function Σ1 of SHA-256. -/
def bigSigma1 (x : Nat) : Nat := rotr32 x 6 ^^^ rotr32 x 11 ^^^ rotr32 x 25

/-- The function σ0 of SHA-256. -/
def smallSigma0 (x : Nat) : Nat := rotr32 x 7 ^^^ rotr32 x 18 ^^^ (x >>> 3)

/-- The function σ1 of SHA-256. -/
def smallSigma1 (x : Nat) : Nat := rotr32 x 17 ^^^ rotr32 x 19 ^^^ (x >>> 10)

/-- The function Ch of SHA-256. -/
def choose32 (x y z : Nat) : Nat := (x &&& y) ^^^ ((x ^^^ 4294967295) &&& z)

/-- The function Maj of SHA-256. -/
def majority32 (x y z : Nat) : Nat := (x &&& y) ^^^ (x &&& z) ^^^ (y &&& z)

/-- The four bytes of a 32-bit word, most significant first. -/
def wordToBytes (w : Nat) : List Nat :=
  [w / 16777216 % 256, w / 65536 % 256, w / 256 % 256, w % 256]

/-- The 32-bit words of a byte sequence, four bytes a word, most significant first. -/
def wordsOfBytes : List Nat → List Nat
  | b0 :: b1 :: b2 :: b3 :: rest =>
    (((b0 * 256 + b1) * 256 + b2) * 256 + b3) :: wordsOfBytes rest
  | _ => []

/-- The message schedule: `n` more words after the words `w`. -/
def extendSchedule : Nat → List Nat → List Nat
  | 0, w => w
  | n + 1, w =>
    let i := w.length
    extendSchedule n
      (w ++ [add32 (add32 (smallSigma1 (w.getD (i - 2) 0)) (w.getD (i - 7) 0))
              (add32 (smallSigma0 (w.getD (i - 15) 0)) (w.getD (i - 16) 0))])

/-- One round of the SHA-256 compression function, with its constant and its
schedule word. -/
def sha256Round (s : List Nat) (kw : Nat × Nat) : List Nat :=
  match s with
  | [a, b, c, d, e, f, g, h] =>
    let t1 := add32 (add32 (add32 (add32 h (bigSigma1 e)) (choose32 e f g)) kw.1) kw.2
    let t2 := add32 (bigSigma0 a) (majority32 a b c)
    [add32 t1 t2, a, b, c, add32 d t1, e, f, g]
  | _ => s

/-- The SHA-256 compression function on one 64-byte block. -/
def sha256Compress (h : List Nat) (block : List Nat) : List Nat :=
  let w := extendSchedule 48 (wordsOfBytes block)
  List.zipWith add32 h ((List.zip sha256RoundConstants w).foldl sha256Round h)

/-- The compression function over the first `n` blocks of `data`. -/
def sha256Blocks : Nat → List Nat → List Nat → List Nat
  | 0, h, _ => h
  | n + 1, h, data => sha256Blocks n (sha256Compress h (data.take 64)) (data.drop 64)

/-- The padded message: a byte `80`, zero bytes up to 56 modulo 64, and the
length in bits as eight bytes. -/
def sha256Pad (msg : List Nat) : List Nat :=
  msg ++ [0x80] ++ List.replicate ((119 - msg.length % 64) % 64) 0
    ++ wordToBytes (msg.length * 8 / 4294967296 % 4294967296)
    ++ wordToBytes (msg.length * 8 % 4294967296)

/-- SHA-256 of a byte sequence: 32 bytes. -/
def sha256 (msg : List Nat) : List Nat :=
  (sha256Blocks ((sha256Pad msg).length / 64) sha256InitialHash (sha256Pad msg)).flatMap
    wordToBytes

/-- The S-box of AES. -/
def sbox : List Nat :=
  [0x63, 0x7c, 0x77, 0x7b, 0xf2, 0x6b, 0x6f, 0xc5, 0x30, 0x01, 0x67, 0x2b, 0xfe, 0xd7, 0xab, 0x76,
   0xca, 0x82, 0xc9, 0x7d, 0xfa, 0x59, 0x47, 0xf0, 0xad, 0xd4, 0xa2, 0xaf, 0x9c, 0xa4, 0x72, 0xc0,
   0xb7, 0xfd, 0x93, 0x26, 0x36, 0x3f, 0xf7, 0xcc, 0x34, 0xa5, 0xe5, 0xf1, 0x71, 0xd8, 0x31, 0x15,
   0x04, 0xc7, 0x23, 0xc3, 0x18, 0x96, 0x05, 0x9a, 0x07, 0x12, 0x80, 0xe2, 0xeb, 0x27, 0xb2, 0x75,
   0x09, 0x83, 0x2c, 0x1a, 0x1b, 0x6e, 0x5a, 0xa0, 0x52, 0x3b, 0xd6, 0xb3, 0x29, 0xe3, 0x2f, 0x84,
   0x53, 0xd1, 0x00, 0xed, 0x20, 0xfc, 0xb1, 0x5b, 0x6a, 0xcb, 0xbe, 0x39, 0x4a, 0x4c, 0x58, 0xcf,
   0xd0, 0xef, 0xaa, 0xfb, 0x43, 0x4d, 0x33, 0x85, 0x45, 0xf9, 0x02, 0x7f, 0x50, 0x3c, 0x9f, 0xa8,
   0x51, 0xa3, 0x40, 0x8f, 0x92, 0x9d, 0x38, 0xf5, 0xbc, 0xb6, 0xda, 0x21, 0x10, 0xff, 0xf3, 0xd2,
   0xcd, 0x0c, 0x13, 0xec, 0x5f, 0x97, 0x44, 0x17, 0xc4, 0xa7, 0x7e, 0x3d, 0x64, 0x5d, 0x19, 0x73,
   0x60, 0x81, 0x4f, 0xdc, 0x22, 0x2a, 0x90, 0x88, 0x46, 0xee, 0xb8, 0x14, 0xde, 0x5e, 0x0b, 0xdb,
   0xe0, 0x32, 0x3a, 0x0a, 0x49, 0x06, 0x24, 0x5c, 0xc2, 0xd3, 0xac, 0x62, 0x91, 0x95, 0xe4, 0x79,
   0xe7, 0xc8, 0x37, 0x6d, 0x8d, 0xd5, 0x4e, 0xa9, 0x6c, 0x56, 0xf4, 0xea, 0x65, 0x7a, 0xae, 0x08,
   0xba, 0x78, 0x25, 0x2e, 0x1c, 0xa6, 0xb4, 0xc6, 0xe8, 0xdd, 0x74, 0x1f, 0x4b, 0xbd, 0x8b, 0x8a,
   0x70, 0x3e, 0xb5, 0x66, 0x48, 0x03, 0xf6, 0x0e, 0x61, 0x35, 0x57, 0xb9, 0x86, 0xc1, 0x1d, 0x9e,
   0xe1, 0xf8, 0x98, 0x11, 0x69, 0xd9, 0x8e, 0x94, 0x9b, 0x1e, 0x87, 0xe9, 0xce, 0x55, 0x28, 0xdf,
   0x8c, 0xa1, 0x89, 0x0d, 0xbf, 0xe6, 0x42, 0x68, 0x41, 0x99, 0x2d, 0x0f, 0xb0, 0x54, 0xbb, 0x16]

/-- The inverse S-box of AES. -/
def invSbox : List Nat :=
  [0x52, 0x09, 0x6a, 0xd5, 0x30, 0x36, 0xa5, 0x38, 0xbf, 0x40, 0xa3, 0x9e, 0x81, 0xf3, 0xd7, 0xfb,
   0x7c, 0xe3, 0x39, 0x82, 0x9b, 0x2f, 0xff, 0x87, 0x34, 0x8e, 0x43, 0x44, 0xc4, 0xde, 0xe9, 0xcb,
   0x54, 0x7b, 0x94, 0x32, 0xa6, 0xc2, 0x23, 0x3d, 0xee, 0x4c, 0x95, 0x0b, 0x42, 0xfa, 0xc3, 0x4e,
   0x08, 0x2e, 0xa1, 0x66, 0x28, 0xd9, 0x24, 0xb2, 0x76, 0x5b, 0xa2, 0x49, 0x6d, 0x8b, 0xd1, 0x25,
   0x72, 0xf8, 0xf6, 0x64, 0x86, 0x68, 0x98, 0x16, 0xd4, 0xa4, 0x5c, 0xcc, 0x5d, 0x65, 0xb6, 0x92,
   0x6c, 0x70, 0x48, 0x50, 0xfd, 0xed, 0xb9, 0xda, 0x5e, 0x15, 0x46, 0x57, 0xa7, 0x8d, 0x9d, 0x84,
   0x90, 0xd8, 0xab, 0x00, 0x8c, 0xbc, 0xd3, 0x0a, 0xf7, 0xe4, 0x58, 0x05, 0xb8, 0xb3, 0x45, 0x06,
   0xd0, 0x2c, 0x1e, 0x8f, 0xca, 0x3f, 0x0f, 0x02, 0xc1, 0xaf, 0xbd, 0x03, 0x01, 0x13, 0x8a, 0x6b,
   0x3a, 0x91, 0x11, 0x41, 0x4f, 0x67, 0xdc, 0xea, 0x97, 0xf2, 0xcf, 0xce, 0xf0, 0xb4, 0xe6, 0x73,
   0x96, 0xac, 0x74, 0x22, 0xe7, 0xad, 0x35, 0x85, 0xe2, 0xf9, 0x37, 0xe8, 0x1c, 0x75, 0xdf, 0x6e,
   0x47, 0xf1, 0x1a, 0x71, 0x1d, 0x29, 0xc5, 0x89, 0x6f, 0xb7, 0x62, 0x0e, 0xaa, 0x18, 0xbe, 0x1b,
   0xfc, 0x56, 0x3e, 0x4b, 0xc6, 0xd2, 0x79, 0x20, 0x9a, 0xdb, 0xc0, 0xfe, 0x78, 0xcd, 0x5a, 0xf4,
   0x1f, 0xdd, 0xa8, 0x33, 0x88, 0x07, 0xc7, 0x31, 0xb1, 0x12, 0x10, 0x59, 0x27, 0x80, 0xec, 0x5f,
   0x60, 0x51, 0x7f, 0xa9, 0x19, 0xb5, 0x4a, 0x0d, 0x2d, 0xe5, 0x7a, 0x9f, 0x93, 0xc9, 0x9c, 0xef,
   0xa0, 0xe0, 0x3b, 0x4d, 0xae, 0x2a, 0xf5, 0xb0, 0xc8, 0xeb, 0xbb, 0x3c, 0x83, 0x53, 0x99, 0x61,
   0x17, 0x2b, 0x04, 0x7e, 0xba, 0x77, 0xd6, 0x26, 0xe1, 0x69, 0x14, 0x63, 0x55, 0x21, 0x0c, 0x7d]

/-- The transformation SubBytes on one byte. -/
def subByte (b : Nat) : Nat := sbox.getD b 0

/-- The transformation InvSubBytes on one byte. -/
def invSubByte (b : Nat) : Nat := invSbox.getD b 0

/-- Multiplication by `x` in the field of AES (`xtime`). -/
def xtime (b : Nat) : Nat := (b <<< 1) ^^^ (if b.testBit 7 then 0x11b else 0)

/-- Multiplication by `03`. -/
def mul3 (b : Nat) : Nat := xtime b ^^^ b

/-- Multiplication by `09`. -/
def mul9 (b : Nat) : Nat := xtime (xtime (xtime b)) ^^^ b

/-- Multiplication by `0b`. -/
def mul11 (b : Nat) : Nat := xtime (xtime (xtime b)) ^^^ xtime b ^^^ b

/-- Multiplication by `0d`. -/
def mul13 (b : Nat) : Nat := xtime (xtime (xtime b)) ^^^ xtime (xtime b) ^^^ b

/-- Multiplication by `0e`. -/
def mul14 (b : Nat) : Nat := xtime (xtime (xtime b)) ^^^ xtime (xtime b) ^^^ xtime b

/-- The transformation ShiftRows; the state holds its columns one after the other. -/
def shiftRows : List Nat → List Nat
  | [s0, s1, s2, s3, s4, s5, s6, s7, s8, s9, s10, s11, s12, s13, s14, s15] =>
    [s0, s5, s10, s15, s4, s9, s14, s3, s8, s13, s2, s7, s12, s1, s6, s11]
  | st => st

/-- The transformation InvShiftRows. -/
def invShiftRows : List Nat → List Nat
  | [s0, s1, s2, s3, s4, s5, s6, s7, s8, s9, s10, s11, s12, s13, s14, s15] =>
    [s0, s13, s10, s7, s4, s1, s14, s11, s8, s5, s2, s15, s12, s9, s6, s3]
  | st => st

/-- The transformation MixColumns, column by column. -/
def mixColumns : List Nat → List Nat
  | a :: b :: c :: d :: rest =>
    (xtime a ^^^ mul3 b ^^^ c ^^^ d) :: (a ^^^ xtime b ^^^ mul3 c ^^^ d)
      :: (a ^^^ b ^^^ xtime c ^^^ mul3 d) :: (mul3 a ^^^ b ^^^ c ^^^ xtime d) :: mixColumns rest
  | st => st

/-- The transformation InvMixColumns, column by column. -/
def invMixColumns : List Nat → List Nat
  | a :: b :: c :: d :: rest =>
    (mul14 a ^^^ mul11 b ^^^ mul13 c ^^^ mul9 d) :: (mul9 a ^^^ mul14 b ^^^ mul11 c ^^^ mul13 d)
      :: (mul13 a ^^^ mul9 b ^^^ mul14 c ^^^ mul11 d)
      :: (mul11 a ^^^ mul13 b ^^^ mul9 c ^^^ mul14 d) :: invMixColumns rest
  | st => st

/-- The round constant of the key expansion: `x ^ (i - 1)` in the field of AES. -/
def roundConstant : Nat → Nat
  | 0 => 0
  | 1 => 1
  | i + 1 => xtime (roundConstant i)

/-- The key expansion of AES-256: `n` more words after the bytes `w`. -/
def expandKey : Nat → List Nat → List Nat
  | 0, w => w
  | n + 1, w =>
    let i := w.length / 4
    let last := w.drop (w.length - 4)
    let back := (w.drop (w.length - 32)).take 4
    let t :=
      if i % 8 = 0 then
        xorBytes ((last.rotate 1).map subByte) [roundConstant (i / 8), 0, 0, 0]
      else if i % 8 = 4 then last.map subByte
      else last
    expandKey n (w ++ xorBytes back t)

/-- Round key `r` of an expanded key. -/
def roundKey (expanded : List Nat) (r : Nat) : List Nat := (expanded.drop (16 * r)).take 16

/-- One round of the cipher: SubBytes, ShiftRows, MixColumns, AddRoundKey. -/
def aesRound (rk : List Nat) (st : List Nat) : List Nat :=
  xorBytes (mixColumns (shiftRows (st.map subByte))) rk

/-- One round of the inverse cipher: AddRoundKey, InvMixColumns, InvShiftRows,
InvSubBytes. -/
def aesInvRound (rk : List Nat) (st : List Nat) : List Nat :=
  (invShiftRows (invMixColumns (xorBytes st rk))).map invSubByte

/-- The rounds `r, r + 1, …` of the cipher, `n` of them. -/
def aesRounds (expanded : List Nat) : Nat → Nat → List Nat → List Nat
  | 0, _, st => st
  | n + 1, r, st => aesRounds expanded n (r + 1) (aesRound (roundKey expanded r) st)

/-- The rounds `r, r - 1, …` of the inverse cipher, `n` of them. -/
def aesInvRounds (expanded : List Nat) : Nat → Nat → List Nat → List Nat
  | 0, _, st => st
  | n + 1, r, st => aesInvRounds expanded n (r - 1) (aesInvRound (roundKey expanded r) st)

/-- The cipher of AES-256 on one block: 14 rounds, the last without MixColumns. -/
def aesEncryptBlock (key block : List Nat) : List Nat :=
  let expanded := expandKey 52 key
  let st := aesRounds expanded 13 1 (xorBytes block (roundKey expanded 0))
  xorBytes (shiftRows (st.map subByte)) (roundKey expanded 14)

/-- The inverse cipher of AES-256 on one block. -/
def aesDecryptBlock (key block : List Nat) : List Nat :=
  let expanded := expandKey 52 key
  let st := (invShiftRows (xorBytes block (roundKey expanded 14))).map invSubByte
  xorBytes (aesInvRounds expanded 13 13 st) (roundKey expanded 0)

/-- The primitives of Node's `crypto` module, for a given random source. -/
def nodeCrypto (randomBytes : Nat → List Nat) : Crypto :=
  { sha256 := sha256
    randomBytes := randomBytes
    encryptBlock := aesEncryptBlock
    decryptBlock := aesDecryptBlock }

/-- A fixed byte sequence in the place of the random source, for concrete
evaluations: the bytes `00 01 02 …`. -/
def countingBytes (n : Nat) : List Nat := (List.range n).map (· % 256)

deriving instance DecidableEq for Except

/-! ## Further notions used in the statements -/

/-- An example run: the first attempt throws, the second answers with an empty
body, the third answers with a page. -/
def demoGet : Nat → String → Outcome := fun i _ =>
  if i = 0 then
    .threw { message := "timeout of 15000ms exceeded", code := some "ECONNABORTED",
             response := none }
  else if i = 1 then .responded []
  else .responded (lit "<html></html>")

/-- No two adjacent characters are both whitespace. -/
def NoAdjacentWhitespace (s : JSString) : Prop :=
  List.Chain' (fun a b => ¬(isWhitespace a = true ∧ isWhitespace b = true)) s

instance (s : JSString) : Decidable (NoAdjacentWhitespace s) := by
  unfold NoAdjacentWhitespace
  infer_instance

/-- The text of a selector when it matches with a text of more than 100
characters, the test `text.length > 100` of the loop. -/
def exceedingText (doc : Document) (sel : String) : Option JSString :=
  (doc.text sel).filter (fun t => 100 < t.length)

/-- The selection rule with the threshold of the loop: the text of the first
selector, in order, that matches with a text of more than 100 characters, and
the body text when there is none. -/
def chosenByThreshold (doc : Document) : JSString :=
  match contentSelectors.filterMap (exceedingText doc) with
  | t :: _ => t
  | [] => bodyText doc

/-- A page whose `<main>` holds 101 characters and whose `<body>` holds that
text and more. -/
def mainDoc : Document :=
  docOfLists
    [("main", List.replicate 101 120),
     ("body", List.replicate 101 120 ++ lit " and the rest of the page")] [] []

/-- A document without a body (a frameset page, for instance) in which
`.content` matches with a text of exactly 100 characters. -/
def framesetDoc : Document :=
  docOfLists [(".content", List.replicate 100 120)] [] []

/-- A page whose `<main>` holds exactly 100 characters and whose `<body>` holds
that text and more. -/
def boundaryDoc : Document :=
  docOfLists
    [("main", List.replicate 100 120),
     ("body", List.replicate 100 120 ++ lit " and the rest of the page")] [] []

/-- The text ends with a whitespace character. -/
def endsWithWhitespace (s : JSString) : Bool :=
  match s.getLast? with
  | some c => isWhitespace c
  | none => false

/-- A page with a title and nothing else: no description, an empty body. -/
def titleOnlyDoc : Document :=
  docOfLists
    [("title", lit "An example page whose title is long enough for the route"), ("body", [])] [] []

/-- A lowercase hex digit: `0`-`9` or `a`-`f`. -/
def isLowerHexDigit (c : Nat) : Bool := (48 ≤ c && c ≤ 57) || (97 ≤ c && c ≤ 102)

/-- The part of a text before its first colon (`parts[0]`). -/
def beforeColon (s : JSString) : JSString := s.takeWhile (· != 58)

/-- The part of a text between its first and its second colon, up to the end
when there is no second colon (`parts[1]` when the text has a colon). -/
def secondPart (s : JSString) : JSString := ((s.dropWhile (· != 58)).tail).takeWhile (· != 58)

/-- A Unicode scalar value: a code point that is not a surrogate. -/
def IsScalar (cp : Nat) : Prop := cp < 0xD800 ∨ (0xE000 ≤ cp ∧ cp < 0x110000)

instance (cp : Nat) : Decidable (IsScalar cp) := by
  unfold IsScalar
  infer_instance

/-- The ciphertext `encrypt` builds for `data`: the output of `update` followed
by the output of `final`, from a fresh cipher object. -/
def ciphertextOf (C : Crypto) (key iv data : List Nat) : List Nat :=
  (cipherUpdate C { key := key, chain := iv, buf := [], held := none } data).2
    ++ cipherFinal C (cipherUpdate C { key := key, chain := iv, buf := [], held := none } data).1

/-- The PKCS padding for `data`: `k` bytes of value `k`, with `k` the distance
to the next multiple of 16. -/
def padding (data : List Nat) : List Nat :=
  List.replicate (16 - data.length % 16) (16 - data.length % 16)

/-- A hex digit, either case. -/
def isHexDigit (c : Nat) : Bool := (hexValue c).isSome

/-- Valid hex: an even number of hex digits and nothing else. -/
def isValidHex (s : JSString) : Bool := s.length % 2 == 0 && s.all isHexDigit

/-- Everything after the first colon of a text, further colons included. -/
def afterFirstColon (s : JSString) : JSString := (s.dropWhile (· != 58)).tail

/-- Malformed input as the claim words it: no colon, or the part before the
first colon is not the hex form of exactly 16 bytes, or the part after the
first colon is not valid hex. -/
def malformedInput (s : JSString) : Bool :=
  !s.contains 58 ||
  !(isValidHex (beforeColon s) && (beforeColon s).length == 32) ||
  !isValidHex (afterFirstColon s)

/-! # Theorems -/

/-! ## Fetcher -/

/-- When an attempt that is not the last one throws, the loop goes on. -/
theorem scrapeLoop_threw_continue (get : Nat → String → Outcome) (len i : Nat) (ua : String)
    (rest : List String) (e : JSError) (h : get i ua = .threw e) (hi : i ≠ len - 1) :
    scrapeLoop get len i (ua :: rest)
      = ((scrapeLoop get len (i + 1) rest).1, i :: (scrapeLoop get len (i + 1) rest).2) := by
  simp [scrapeLoop, h, hi]

/-- When an attempt answers with an empty body, the loop goes on. -/
theorem scrapeLoop_empty_continue (get : Nat → String → Outcome) (len i : Nat) (ua : String)
    (rest : List String) (h : get i ua = .responded []) :
    scrapeLoop get len i (ua :: rest)
      = ((scrapeLoop get len (i + 1) rest).1, i :: (scrapeLoop get len (i + 1) rest).2) := by
  simp [scrapeLoop, h, truthy]

/-- When an attempt answers with a non-empty body, the loop stops with it. -/
theorem scrapeLoop_success (get : Nat → String → Outcome) (len i : Nat) (ua : String)
    (rest : List String) (data : JSString) (h : get i ua = .responded data)
    (hd : truthy data = true) :
    scrapeLoop get len i (ua :: rest) = (.returned data, [i]) := by
  simp [scrapeLoop, h, hd]

/-- An attempt that yields no usable body, and is not the last one if it
throws, is followed by the next attempt. -/
theorem scrapeLoop_skip (get : Nat → String → Outcome) (len i : Nat) (ua : String)
    (rest : List String) (hi : i ≠ len - 1)
    (h : ∀ d, get i ua = .responded d → d = []) :
    scrapeLoop get len i (ua :: rest)
      = ((scrapeLoop get len (i + 1) rest).1, i :: (scrapeLoop get len (i + 1) rest).2) := by
  cases hg : get i ua with
  | threw e => exact scrapeLoop_threw_continue get len i ua rest e hg hi
  | responded d =>
    have := h d hg
    subst this
    exact scrapeLoop_empty_continue get len i ua rest hg

/-- When the last attempt throws, the loop throws its error. -/
theorem scrapeLoop_threw_last (get : Nat → String → Outcome) (len i : Nat) (ua : String)
    (rest : List String) (e : JSError) (h : get i ua = .threw e) (hi : i = len - 1) :
    scrapeLoop get len i (ua :: rest) = (.threw e, [i]) := by
  simp only [scrapeLoop, h]
  rw [if_pos hi]

/-- When the last attempt answers with an empty body, the loop ends without a value. -/
theorem scrapeLoop_empty_last (get : Nat → String → Outcome) (len i : Nat) (ua : String)
    (h : get i ua = .responded []) :
    scrapeLoop get len i [ua] = (.returnedUndefined, [i]) := by
  simp [scrapeLoop, h, truthy]

/-- The three user agents by position. -/
theorem scrapeWebsite_eq (get : Nat → String → Outcome) :
    scrapeWebsite get
      = scrapeLoop get 3 0 [userAgents.getD 0 "", userAgents.getD 1 "", userAgents.getD 2 ""] :=
  rfl

/-- If no attempt yields a non-empty body and the last attempt throws, then
`scrapeWebsite` throws the error of the last attempt, after three attempts. -/
theorem scrapeWebsite_last_threw (get : Nat → String → Outcome) (e : JSError)
    (h0 : ∀ d, get 0 (userAgents.getD 0 "") = .responded d → d = [])
    (h1 : ∀ d, get 1 (userAgents.getD 1 "") = .responded d → d = [])
    (h2 : get 2 (userAgents.getD 2 "") = .threw e) :
    scrapeWebsite get = (.threw e, [0, 1, 2]) := by
  rw [scrapeWebsite_eq, scrapeLoop_skip get 3 0 _ _ (by decide) h0,
    scrapeLoop_skip get 3 1 _ _ (by decide) h1,
    scrapeLoop_threw_last get 3 2 _ _ e h2 (by decide)]

/-- If no attempt yields a non-empty body and the last attempt does not throw
(its body is empty), then `scrapeWebsite` ends normally without a value. -/
theorem scrapeWebsite_last_empty (get : Nat → String → Outcome)
    (h0 : ∀ d, get 0 (userAgents.getD 0 "") = .responded d → d = [])
    (h1 : ∀ d, get 1 (userAgents.getD 1 "") = .responded d → d = [])
    (h2 : get 2 (userAgents.getD 2 "") = .responded []) :
    scrapeWebsite get = (.returnedUndefined, [0, 1, 2]) := by
  rw [scrapeWebsite_eq, scrapeLoop_skip get 3 0 _ _ (by decide) h0,
    scrapeLoop_skip get 3 1 _ _ (by decide) h1,
    scrapeLoop_empty_last get 3 2 _ h2]

/-- C3, at the failing input: when each of the three attempts resolves to a
response with an empty body, `scrapeWebsite` makes its three attempts and then
ends normally without a value (`undefined`): it neither returns a body nor
throws. -/
theorem scrapeWebsite_all_empty_bodies :
    scrapeWebsite (fun _ _ => Outcome.responded []) = (Completion.returnedUndefined, [0, 1, 2]) := by
  decide

/-- C4: if attempt `i` (counted from 0, so `i < 3`) is the first whose response
has a non-empty body, then `scrapeWebsite` returns exactly that body after the
attempts `0, …, i` in this order, whatever the earlier attempts threw or
returned and whatever later attempts would have done. -/
theorem scrapeWebsite_first_success (get : Nat → String → Outcome) (i : Nat) (data : JSString)
    (hi : i < userAgents.length)
    (hget : get i (userAgents.getD i "") = .responded data)
    (hdata : data ≠ [])
    (hbefore : ∀ j, j < i → ∀ d, get j (userAgents.getD j "") = .responded d → d = []) :
    scrapeWebsite get = (.returned data, List.range (i + 1)) := by
  have hd : truthy data = true := by
    cases data with
    | nil => exact absurd rfl hdata
    | cons a l => rfl
  have hlen : userAgents.length = 3 := rfl
  rw [hlen] at hi
  rw [scrapeWebsite_eq]
  interval_cases i
  · rw [scrapeLoop_success get 3 0 _ _ data hget hd]
    rfl
  · rw [scrapeLoop_skip get 3 0 _ _ (by decide) (hbefore 0 (by decide)),
      scrapeLoop_success get 3 1 _ _ data hget hd]
    rfl
  · rw [scrapeLoop_skip get 3 0 _ _ (by decide) (hbefore 0 (by decide)),
      scrapeLoop_skip get 3 1 _ _ (by decide) (hbefore 1 (by decide)),
      scrapeLoop_success get 3 2 _ _ data hget hd]
    rfl

/-- C4 at a concrete run: attempt 2 is the first with a non-empty body. -/
theorem scrapeWebsite_first_success_witness :
    scrapeWebsite demoGet = (.returned (lit "<html></html>"), [0, 1, 2]) :=
  scrapeWebsite_first_success demoGet 2 (lit "<html></html>") (by decide) (by rfl) (by decide)
    (by
      intro j hj d hd
      interval_cases j
      · simp [demoGet] at hd
      · simp [demoGet] at hd
        exact hd)

/-! ## Error mapping -/

/-- C9: the reply of the `catch` block of `/api/scrape`.  The three error codes
are tested first, in the order ENOTFOUND, ECONNREFUSED, ETIMEDOUT, then the
HTTP statuses 403, 404, 429 of an error without such a code; any other error
gets the generic message.  In every case `success` is false and `details` is
the error's own message. -/
theorem scrapeCatch_mapping (error : JSError) :
    (error.code = some "ENOTFOUND" →
      (scrapeCatch error).error = "Website not found. Please check the URL.") ∧
    (error.code = some "ECONNREFUSED" →
      (scrapeCatch error).error = "Connection refused. The website is not accessible.") ∧
    (error.code = some "ETIMEDOUT" →
      (scrapeCatch error).error = "Request timed out. The website is taking too long to respond.") ∧
    (error.code ≠ some "ENOTFOUND" ∧ error.code ≠ some "ECONNREFUSED" ∧
        error.code ≠ some "ETIMEDOUT" →
      (responseStatus error = some 403 →
        (scrapeCatch error).error = "Access forbidden. The website is blocking scraping requests.") ∧
      (responseStatus error = some 404 →
        (scrapeCatch error).error = "Page not found (404). Please check the URL.") ∧
      (responseStatus error = some 429 →
        (scrapeCatch error).error = "Too many requests. The website is rate limiting.") ∧
      (responseStatus error ≠ some 403 ∧ responseStatus error ≠ some 404 ∧
          responseStatus error ≠ some 429 →
        (scrapeCatch error).error = "Failed to scrape website")) ∧
    (scrapeCatch error).success = false ∧
    (scrapeCatch error).details = error.message ∧
    (scrapeCatch error).httpStatus = 500 := by
  refine ⟨?_, ?_, ?_, ?_, rfl, rfl, rfl⟩
  · intro h
    simp [scrapeCatch, h]
  · intro h
    simp [scrapeCatch, h]
  · intro h
    simp [scrapeCatch, h]
  · rintro ⟨h1, h2, h3⟩
    refine ⟨?_, ?_, ?_, ?_⟩
    · intro h
      simp [scrapeCatch, h1, h2, h3, h]
    · intro h
      simp [scrapeCatch, h1, h2, h3, h]
    · intro h
      simp [scrapeCatch, h1, h2, h3, h]
    · rintro ⟨h4, h5, h6⟩
      simp [scrapeCatch, h1, h2, h3, h4, h5, h6]

/-! ## Text clean-up -/

theorem lit_space : lit " " = [32] := rfl

theorem lit_newline : lit "\n" = [10] := rfl

theorem isWhitespace_space : isWhitespace 32 = true := rfl

/-- Every newline is a whitespace character. -/
theorem isWhitespace_of_isNewline (c : Nat) (h : isNewline c = true) : isWhitespace c = true := by
  simp only [isNewline, beq_iff_eq] at h
  subst h
  rfl

/-- The pieces of `splitOnP` hold no separator. -/
theorem splitOnP_pieces_free (p : Nat → Bool) (s : JSString) :
    ∀ w ∈ s.splitOnP p, ∀ c ∈ w, p c = false := by
  induction s with
  | nil => simp [List.splitOnP_nil]
  | cons a s ih =>
    rw [List.splitOnP_cons]
    by_cases ha : p a = true
    · simp only [ha, if_true]
      intro w hw
      rcases List.mem_cons.mp hw with rfl | hw
      · simp
      · exact ih w hw
    · simp only [ha]
      obtain ⟨w0, ws, hws⟩ := List.exists_cons_of_ne_nil (List.splitOnP_ne_nil p s)
      rw [hws] at ih ⊢
      simp only [Bool.false_eq_true, if_false, List.modifyHead_cons]
      intro w hw
      rcases List.mem_cons.mp hw with rfl | hw
      · intro c hc
        rcases List.mem_cons.mp hc with rfl | hc
        · simpa using ha
        · exact ih w0 (List.mem_cons_self _ _) c hc
      · exact ih w (List.mem_cons_of_mem _ hw)

/-- A token is not empty. -/
theorem tokens_ne_nil (s : JSString) : ∀ t ∈ tokens s, t ≠ [] := by
  intro t ht
  simp only [tokens, List.mem_filter] at ht
  intro h
  simp [h] at ht

/-- A token holds no whitespace. -/
theorem tokens_free (s : JSString) : ∀ t ∈ tokens s, ∀ c ∈ t, isWhitespace c = false := by
  intro t ht
  simp only [tokens, List.mem_filter] at ht
  exact splitOnP_pieces_free isWhitespace s t ht.1

theorem joinBySpace_nil : joinBySpace [] = [] := rfl

theorem joinBySpace_single (t : JSString) : joinBySpace [t] = t := by
  simp [joinBySpace, List.intercalate]

theorem joinBySpace_cons_cons (t u : JSString) (us : List JSString) :
    joinBySpace (t :: u :: us) = t ++ 32 :: joinBySpace (u :: us) := by
  simp [joinBySpace, List.intercalate, lit_space]

/-- Each token after a space: the empty text for no token, else a space and the
tokens joined by single spaces. -/
theorem flatMap_space_eq (ts : List JSString) :
    ts.flatMap (fun t => 32 :: t) = if ts = [] then [] else 32 :: joinBySpace ts := by
  induction ts with
  | nil => simp
  | cons t ts ih =>
    rw [List.flatMap_cons, ih]
    cases ts with
    | nil => simp [joinBySpace_single]
    | cons u us => simp [joinBySpace_cons_cons]

/-- Joining a first token with the following ones. -/
theorem joinBySpace_cons (t : JSString) (ts : List JSString) :
    joinBySpace (t :: ts) = t ++ ts.flatMap (fun u => 32 :: u) := by
  rw [flatMap_space_eq]
  cases ts with
  | nil => simp [joinBySpace_single]
  | cons u us => simp [joinBySpace_cons_cons]

/-- The join of non-empty tokens is empty only for no token. -/
theorem joinBySpace_eq_nil (ts : List JSString) (h : ∀ t ∈ ts, t ≠ []) :
    joinBySpace ts = [] ↔ ts = [] := by
  cases ts with
  | nil => simp [joinBySpace, List.intercalate]
  | cons t ts =>
    rw [joinBySpace_cons]
    have := h t (List.mem_cons_self _ _)
    simp [this]

/-- Dropping trailing characters, one step at the front. -/
theorem rdropWhile_cons (p : Nat → Bool) (a : Nat) (l : List Nat) :
    (a :: l).rdropWhile p
      = if l.rdropWhile p = [] ∧ p a = true then [] else a :: l.rdropWhile p := by
  induction l using List.reverseRecOn generalizing a with
  | nil => simp [List.rdropWhile_singleton]
  | append_singleton l x ih =>
    rw [← List.cons_append]
    by_cases hx : p x = true
    · rw [List.rdropWhile_concat_pos _ _ _ hx, List.rdropWhile_concat_pos _ _ _ hx]
      exact ih a
    · rw [List.rdropWhile_concat_neg _ _ _ hx, List.rdropWhile_concat_neg _ _ _ hx]
      simp

/-- The first replacement leaves spaces as the only whitespace. -/
theorem replaceRuns_whitespace_mem (b : Bool) (s : JSString) :
    ∀ c ∈ replaceRuns isWhitespace [32] b s, c = 32 ∨ isWhitespace c = false := by
  induction s generalizing b with
  | nil => simp [replaceRuns]
  | cons a s ih =>
    intro c hc
    simp only [replaceRuns] at hc
    by_cases ha : isWhitespace a = true
    · simp only [ha, if_true] at hc
      cases b with
      | true => exact ih true c (by simpa using hc)
      | false =>
        simp only [Bool.false_eq_true, if_false, List.singleton_append, List.mem_cons] at hc
        rcases hc with rfl | hc
        · exact Or.inl rfl
        · exact ih true c hc
    · simp only [ha, Bool.false_eq_true, if_false, List.mem_cons] at hc
      rcases hc with rfl | hc
      · exact Or.inr (by simpa using ha)
      · exact ih false c hc

/-- A replacement changes nothing in a text without a character of the class. -/
theorem replaceRuns_of_free (p : Nat → Bool) (r : JSString) (b : Bool) (s : JSString)
    (h : ∀ c ∈ s, p c = false) : replaceRuns p r b s = s := by
  induction s generalizing b with
  | nil => rfl
  | cons a s ih =>
    have ha : p a = false := h a (List.mem_cons_self _ _)
    simp only [replaceRuns, ha, Bool.false_eq_true, if_false]
    rw [ih false (fun c hc => h c (List.mem_cons_of_mem _ hc))]

/-- After the first replacement no newline is left. -/
theorem replaceRuns_whitespace_no_newline (b : Bool) (s : JSString) :
    ∀ c ∈ replaceRuns isWhitespace [32] b s, isNewline c = false := by
  intro c hc
  rcases replaceRuns_whitespace_mem b s c hc with rfl | h
  · rfl
  · cases hn : isNewline c with
    | false => rfl
    | true => rw [isWhitespace_of_isNewline c hn] at h; exact absurd h (by decide)

/-- The second replacement, `.replace(/\n+/g, '\n')`, never changes the text it gets. -/
theorem second_replace_id (s : JSString) :
    replaceRuns isNewline (lit "\n") false (replaceRuns isWhitespace (lit " ") false s)
      = replaceRuns isWhitespace (lit " ") false s := by
  rw [lit_space]
  exact replaceRuns_of_free _ _ _ _ (replaceRuns_whitespace_no_newline false s)

/-- Inside a run, the replacement output does not start with whitespace. -/
theorem dropWhile_replaceRuns_true (s : JSString) :
    (replaceRuns isWhitespace [32] true s).dropWhile isWhitespace
      = replaceRuns isWhitespace [32] true s := by
  induction s with
  | nil => rfl
  | cons a s ih =>
    by_cases ha : isWhitespace a = true
    · simpa [replaceRuns, ha] using ih
    · simp [replaceRuns, ha, List.dropWhile_cons]

/-- Dropping the leading whitespace of the replacement output. -/
theorem dropWhile_replaceRuns_false (s : JSString) :
    (replaceRuns isWhitespace [32] false s).dropWhile isWhitespace
      = replaceRuns isWhitespace [32] true s := by
  cases s with
  | nil => rfl
  | cons a s =>
    by_cases ha : isWhitespace a = true
    · simp only [replaceRuns, ha, if_true, Bool.false_eq_true, if_false, List.singleton_append]
      rw [List.dropWhile_cons, if_pos isWhitespace_space]
      exact dropWhile_replaceRuns_true s
    · simp [replaceRuns, ha, List.dropWhile_cons]

/-- The replacement output without its trailing whitespace, in terms of the
pieces between whitespace characters. -/
theorem rdropWhile_replaceRuns (s : JSString) :
    ∃ w rest, s.splitOnP isWhitespace = w :: rest ∧
      (replaceRuns isWhitespace [32] false s).rdropWhile isWhitespace
        = w ++ (rest.filter (fun x => !x.isEmpty)).flatMap (fun t => 32 :: t) ∧
      (replaceRuns isWhitespace [32] true s).rdropWhile isWhitespace
        = joinBySpace ((w :: rest).filter (fun x => !x.isEmpty)) := by
  induction s with
  | nil =>
    refine ⟨[], [], by simp [List.splitOnP_nil], ?_, ?_⟩ <;>
      simp [replaceRuns, joinBySpace_nil]
  | cons a s ih =>
    obtain ⟨w, rest, hsplit, hfalse, htrue⟩ := ih
    have hne : ∀ t ∈ (w :: rest).filter (fun x => !x.isEmpty), t ≠ [] := by
      intro t ht h
      simp [List.mem_filter, h] at ht
    by_cases ha : isWhitespace a = true
    · refine ⟨[], w :: rest, by rw [List.splitOnP_cons, hsplit]; simp [ha], ?_, ?_⟩
      · simp only [replaceRuns, ha, if_true, Bool.false_eq_true, if_false,
          List.singleton_append, List.nil_append]
        rw [rdropWhile_cons, htrue, flatMap_space_eq]
        by_cases hT : (w :: rest).filter (fun x => !x.isEmpty) = []
        · simp [hT, joinBySpace_nil, isWhitespace_space]
        · have hJ : joinBySpace ((w :: rest).filter (fun x => !x.isEmpty)) ≠ [] :=
            fun h => hT ((joinBySpace_eq_nil _ hne).mp h)
          simp [hT, hJ]
      · simp only [replaceRuns, ha, if_true]
        rw [htrue]
        simp
    · refine ⟨a :: w, rest, by rw [List.splitOnP_cons, hsplit]; simp [ha], ?_, ?_⟩
      · simp only [replaceRuns, ha, Bool.false_eq_true, if_false]
        rw [rdropWhile_cons, hfalse]
        simp [ha]
      · simp only [replaceRuns, ha, Bool.false_eq_true, if_false]
        rw [rdropWhile_cons, hfalse]
        have : ((a :: w) :: rest).filter (fun x => !x.isEmpty)
            = (a :: w) :: rest.filter (fun x => !x.isEmpty) := by simp
        rw [this, joinBySpace_cons]
        simp [ha]

/-- The cleaned text is the tokens of the raw text joined by single spaces. -/
theorem cleanText_eq_join (s : JSString) : cleanText s = joinBySpace (tokens s) := by
  unfold cleanText trim
  rw [second_replace_id, lit_space, dropWhile_replaceRuns_false]
  obtain ⟨w, rest, hsplit, _, htrue⟩ := rdropWhile_replaceRuns s
  rw [htrue, tokens, hsplit]

/-- The first replacement leaves no two adjacent whitespace characters, and
inside a run its output starts with no whitespace. -/
theorem replaceRuns_chain (b : Bool) (s : JSString) :
    NoAdjacentWhitespace (replaceRuns isWhitespace [32] b s) ∧
      (b = true → ∀ c, (replaceRuns isWhitespace [32] b s).head? = some c →
        isWhitespace c = false) := by
  induction s generalizing b with
  | nil => simp [replaceRuns, NoAdjacentWhitespace]
  | cons a s ih =>
    by_cases ha : isWhitespace a = true
    · cases b with
      | true => simpa [replaceRuns, ha] using ih true
      | false =>
        simp only [replaceRuns, ha, if_true, Bool.false_eq_true, if_false, List.singleton_append]
        refine ⟨?_, by simp⟩
        obtain ⟨hc, hh⟩ := ih true
        unfold NoAdjacentWhitespace at hc ⊢
        rw [List.chain'_cons']
        refine ⟨?_, hc⟩
        intro y hy
        have := hh rfl y (by simpa using hy)
        simp [this]
    · simp only [replaceRuns, ha, Bool.false_eq_true, if_false]
      refine ⟨?_, ?_⟩
      · obtain ⟨hc, _⟩ := ih false
        unfold NoAdjacentWhitespace at hc ⊢
        rw [List.chain'_cons']
        refine ⟨?_, hc⟩
        intro y _
        simp [ha]
      · intro _ c hc
        simp only [List.head?_cons, Option.some.injEq] at hc
        subst hc
        simpa using ha

/-- The trimmed text is a contiguous part of the text. -/
theorem trim_contiguous (s : JSString) : trim s <:+: s :=
  List.IsInfix.trans ( List.rdropWhile_prefix isWhitespace _).isInfix
    (List.dropWhile_suffix isWhitespace).isInfix

/-- The cleaned text has no two adjacent whitespace characters. -/
theorem cleanText_noAdjacent (s : JSString) : NoAdjacentWhitespace (cleanText s) := by
  unfold cleanText
  rw [second_replace_id, lit_space]
  exact List.Chain'.infix (replaceRuns_chain false s).1 (trim_contiguous _)

/-- A trimmed text does not start with whitespace. -/
theorem trim_head (s : JSString) (c : Nat) (h : (trim s).head? = some c) :
    isWhitespace c = false := by
  unfold trim at h
  have hpre : (s.dropWhile isWhitespace).rdropWhile isWhitespace <+: s.dropWhile isWhitespace :=
    List.rdropWhile_prefix isWhitespace _
  cases hX : (s.dropWhile isWhitespace).rdropWhile isWhitespace with
  | nil => simp [hX] at h
  | cons x xs =>
    rw [hX] at h hpre
    simp only [List.head?_cons, Option.some.injEq] at h
    subst h
    obtain ⟨t, ht⟩ := hpre
    have hne : s.dropWhile isWhitespace ≠ [] := by rw [← ht]; simp
    have hhead := List.head_dropWhile_not isWhitespace s hne
    have : (s.dropWhile isWhitespace).head hne = x := by
      simp only [← ht, List.cons_append, List.head_cons]
    rw [this] at hhead
    simpa using hhead

/-- A trimmed text does not end with whitespace. -/
theorem trim_getLast (s : JSString) (c : Nat) (h : (trim s).getLast? = some c) :
    isWhitespace c = false := by
  unfold trim at h
  have hne : (s.dropWhile isWhitespace).rdropWhile isWhitespace ≠ [] := by
    intro h0
    simp [h0] at h
  have := List.rdropWhile_last_not isWhitespace (s.dropWhile isWhitespace) hne
  rw [List.getLast?_eq_getLast _ hne] at h
  simp only [Option.some.injEq] at h
  rw [h] at this
  simpa using this

/-- Dropping leading whitespace keeps the other characters. -/
theorem filter_dropWhile (s : JSString) :
    (s.dropWhile isWhitespace).filter (fun c => !isWhitespace c)
      = s.filter (fun c => !isWhitespace c) := by
  induction s with
  | nil => rfl
  | cons a s ih =>
    by_cases ha : isWhitespace a = true
    · simp [List.dropWhile_cons, ha, ih]
    · simp [List.dropWhile_cons, ha]

/-- Dropping trailing whitespace keeps the other characters. -/
theorem filter_rdropWhile (s : JSString) :
    (s.rdropWhile isWhitespace).filter (fun c => !isWhitespace c)
      = s.filter (fun c => !isWhitespace c) := by
  induction s using List.reverseRecOn with
  | nil => rfl
  | append_singleton l x ih =>
    by_cases hx : isWhitespace x = true
    · rw [List.rdropWhile_concat_pos _ _ _ hx, ih]
      simp [hx]
    · rw [List.rdropWhile_concat_neg _ _ _ hx]

/-- The first replacement keeps the non-whitespace characters, in order. -/
theorem filter_replaceRuns (b : Bool) (s : JSString) :
    (replaceRuns isWhitespace [32] b s).filter (fun c => !isWhitespace c)
      = s.filter (fun c => !isWhitespace c) := by
  induction s generalizing b with
  | nil => rfl
  | cons a s ih =>
    by_cases ha : isWhitespace a = true
    · cases b with
      | true => simp [replaceRuns, ha, ih]
      | false => simp [replaceRuns, ha, ih, isWhitespace_space]
    · simp [replaceRuns, ha, ih]

/-- The cleaned text keeps every non-whitespace character, in order. -/
theorem cleanText_filter (s : JSString) :
    (cleanText s).filter (fun c => !isWhitespace c) = s.filter (fun c => !isWhitespace c) := by
  unfold cleanText trim
  rw [second_replace_id, lit_space, filter_rdropWhile, filter_dropWhile, filter_replaceRuns]

/-- The tokens of non-empty whitespace-free words joined by single spaces are
these words. -/
theorem tokens_joinBySpace (ts : List JSString) (hne : ∀ t ∈ ts, t ≠ [])
    (hfree : ∀ t ∈ ts, ∀ c ∈ t, isWhitespace c = false) :
    tokens (joinBySpace ts) = ts := by
  induction ts with
  | nil => simp [joinBySpace_nil, tokens, List.splitOnP_nil]
  | cons t ts ih =>
    have ht : t ≠ [] := hne t (List.mem_cons_self _ _)
    have hft : ∀ c ∈ t, ¬ isWhitespace c = true := by
      intro c hc
      simp [hfree t (List.mem_cons_self _ _) c hc]
    cases ts with
    | nil =>
      rw [joinBySpace_single, tokens, List.splitOnP_eq_single isWhitespace t hft]
      simp [ht]
    | cons u us =>
      have ih' := ih (fun x hx => hne x (List.mem_cons_of_mem _ hx))
        (fun x hx => hfree x (List.mem_cons_of_mem _ hx))
      rw [joinBySpace_cons_cons, tokens,
        List.splitOnP_first isWhitespace t hft 32 isWhitespace_space]
      simp only [tokens] at ih'
      simp [ht, ih']

/-- Cleaning a cleaned text changes nothing. -/
theorem cleanText_idempotent (s : JSString) : cleanText (cleanText s) = cleanText s := by
  rw [cleanText_eq_join (cleanText s), cleanText_eq_join s,
    tokens_joinBySpace _ (tokens_ne_nil s) (tokens_free s)]

/-- The cleaned text holds no newline. -/
theorem cleanText_no_newline (s : JSString) : 10 ∉ cleanText s := by
  intro h
  unfold cleanText at h
  rw [second_replace_id, lit_space] at h
  have hmem := (trim_contiguous _).subset h
  have := replaceRuns_whitespace_no_newline false s 10 hmem
  simp [isNewline] at this

/-! ## Main-content selection -/

/-- The loop against the worded rule, when no matched text has exactly 100
characters: it stops at the first text of at least 100 characters, and else
ends with the entry text or a text shorter than 100 characters. -/
theorem selectLoop_spec (doc : Document) (sels : List String) (text : JSString)
    (h : ∀ sel ∈ sels, ∀ t, doc.text sel = some t → t.length ≠ 100) :
    match sels.filterMap (longText doc) with
    | t :: _ => selectLoop doc text sels = t ∧ 100 < t.length
    | [] => selectLoop doc text sels = text ∨ (selectLoop doc text sels).length < 100 := by
  induction sels generalizing text with
  | nil => simp [selectLoop]
  | cons sel rest ih =>
    have hrest : ∀ s ∈ rest, ∀ t, doc.text s = some t → t.length ≠ 100 :=
      fun s hs => h s (List.mem_cons_of_mem _ hs)
    cases hsel : doc.text sel with
    | none =>
      have hf : longText doc sel = none := by
        simp [longText, hsel, Option.filter]
      rw [List.filterMap_cons_none hf]
      simp only [selectLoop, hsel]
      exact ih text hrest
    | some t =>
      have h100 := h sel (List.mem_cons_self _ _) t hsel
      by_cases hlen : 100 ≤ t.length
      · have hgt : 100 < t.length := by omega
        have hf : longText doc sel = some t := by
          simp [longText, hsel, Option.filter, hlen]
        rw [List.filterMap_cons_some hf]
        simp [selectLoop, hsel, hgt]
      · have hlt : ¬ 100 < t.length := by omega
        have hf : longText doc sel = none := by
          simp [longText, hsel, Option.filter, hlen]
        rw [List.filterMap_cons_none hf]
        simp only [selectLoop, hsel, gt_iff_lt, hlt, if_false]
        have := ih t hrest
        revert this
        cases rest.filterMap (longText doc) with
        | nil =>
          intro this
          right
          rcases this with h1 | h1
          · rw [h1]; omega
          · exact h1
        | cons u us => exact id

/-- Away from the boundary the code and the worded rule agree: when no matched
selector has a text of exactly 100 characters, `extractText` chooses the text
of the first selector that matches with at least 100 characters, and the body
text when there is none. -/
theorem chooseText_eq_chosenBySpec (doc : Document)
    (h : ∀ sel ∈ contentSelectors, ∀ t, doc.text sel = some t → t.length ≠ 100) :
    chooseText doc = chosenBySpec doc := by
  have := selectLoop_spec doc contentSelectors [] h
  unfold chooseText chosenBySpec
  revert this
  cases contentSelectors.filterMap (longText doc) with
  | nil =>
    intro this
    rcases this with h1 | h1
    · simp [h1, truthy]
    · simp [h1]
  | cons u us =>
    rintro ⟨h1, h2⟩
    have hne : u ≠ [] := by
      intro h0
      rw [h0] at h2
      simp at h2
    have hlt : ¬ u.length < 100 := by omega
    simp [h1, truthy, hne, hlt]

/-- When every matched selector has a text shorter than 100 characters, the
chosen text is the body text. -/
theorem chooseText_fallback (doc : Document)
    (h : ∀ sel ∈ contentSelectors, ∀ t, doc.text sel = some t → t.length < 100) :
    chooseText doc = bodyText doc := by
  rw [chooseText_eq_chosenBySpec doc (fun sel hs t ht => by have := h sel hs t ht; omega)]
  unfold chosenBySpec
  have : contentSelectors.filterMap
      (longText doc) = [] := by
    rw [List.filterMap_eq_nil_iff]
    intro sel hs
    cases hsel : doc.text sel with
    | none => simp [longText, hsel, Option.filter]
    | some t =>
      have := h sel hs t hsel
      simp [longText, hsel, Option.filter]
      omega
  rw [this]

theorem exceedingText_some (doc : Document) (sel : String) (t : JSString)
    (h : exceedingText doc sel = some t) : doc.text sel = some t ∧ 100 < t.length := by
  unfold exceedingText at h
  cases hsel : doc.text sel with
  | none => simp [hsel, Option.filter] at h
  | some u =>
    simp only [hsel, Option.filter] at h
    by_cases hu : 100 < u.length
    · simp [hu] at h
      subst h
      exact ⟨rfl, hu⟩
    · simp [hu] at h

/-- The loop over selectors that end with one that matches: it stops at the
first text of more than 100 characters, and else ends with the text of the last
selector. -/
theorem selectLoop_append_matching (doc : Document) (sels : List String) (text : JSString)
    (last : String) (b : JSString) (hb : doc.text last = some b) :
    selectLoop doc text (sels ++ [last])
      = match sels.filterMap (exceedingText doc) with
        | t :: _ => t
        | [] => b := by
  induction sels generalizing text with
  | nil =>
    simp only [List.nil_append, List.filterMap_nil, selectLoop, hb]
    split <;> rfl
  | cons sel rest ih =>
    cases hsel : doc.text sel with
    | none =>
      have hf : exceedingText doc sel = none := by
        simp [exceedingText, hsel, Option.filter]
      rw [List.filterMap_cons_none hf]
      simp only [List.cons_append, selectLoop, hsel]
      exact ih text
    | some t =>
      by_cases hlen : 100 < t.length
      · have hf : exceedingText doc sel = some t := by
          simp [exceedingText, hsel, Option.filter, hlen]
        rw [List.filterMap_cons_some hf]
        simp [selectLoop, hsel, hlen]
      · have hf : exceedingText doc sel = none := by
          simp [exceedingText, hsel, Option.filter, hlen]
        rw [List.filterMap_cons_none hf]
        simp only [List.cons_append, selectLoop, hsel, gt_iff_lt, hlen, if_false]
        exact ih t

theorem contentSelectors_eq :
    contentSelectors
      = ["main", "article", "[role=\"main\"]", ".content", ".main-content", "#content", "#main",
          ".post-content", ".article-content"] ++ ["body"] := rfl

/-- The choice on a document with a body: the text of the first selector that
matches with more than 100 characters, and the body text when there is none. -/
theorem chooseText_eq_chosenByThreshold (doc : Document) (b : JSString)
    (hb : doc.text "body" = some b) :
    chooseText doc = chosenByThreshold doc := by
  unfold chooseText chosenByThreshold
  rw [contentSelectors_eq, selectLoop_append_matching doc _ [] "body" b hb,
    List.filterMap_append]
  have hbody : bodyText doc = b := by simp [bodyText, hb]
  cases hf : List.filterMap (exceedingText doc)
      ["main", "article", "[role=\"main\"]", ".content", ".main-content", "#content", "#main",
        ".post-content", ".article-content"] with
  | nil =>
    simp only [List.nil_append, hbody]
    have h1 : (if (!truthy b || decide (b.length < 100)) = true then b else b) = b := by
      split <;> rfl
    rw [h1]
    by_cases hlen : 100 < b.length
    · have hx : exceedingText doc "body" = some b := by
        simp [exceedingText, hb, Option.filter, hlen]
      simp [List.filterMap_cons_some hx]
    · have hx : exceedingText doc "body" = none := by
        simp [exceedingText, hb, Option.filter, hlen]
      simp [List.filterMap_cons_none hx, hbody]
  | cons t ts =>
    have hmem : t ∈ List.filterMap (exceedingText doc)
        ["main", "article", "[role=\"main\"]", ".content", ".main-content", "#content", "#main",
          ".post-content", ".article-content"] := by
      rw [hf]
      exact List.mem_cons_self _ _
    obtain ⟨sel, _, hsel⟩ := List.mem_filterMap.mp hmem
    have hlen := (exceedingText_some doc sel t hsel).2
    have hne : t ≠ [] := by
      intro h0
      rw [h0] at hlen
      simp at hlen
    have hlt : ¬ t.length < 100 := by omega
    simp [truthy, hne, hlt]

/-- The loop stops at the first selector that matches with a text of more than
100 characters. -/
theorem selectLoop_first_exceeding (doc : Document) (pre : List String) (sel : String)
    (post : List String) (text t : JSString)
    (hpre : ∀ s ∈ pre, ∀ u, doc.text s = some u → u.length ≤ 100)
    (ht : doc.text sel = some t) (hlen : 100 < t.length) :
    selectLoop doc text (pre ++ sel :: post) = t := by
  induction pre generalizing text with
  | nil => simp [selectLoop, ht, hlen]
  | cons s rest ih =>
    have hrest : ∀ x ∈ rest, ∀ u, doc.text x = some u → u.length ≤ 100 :=
      fun x hx => hpre x (List.mem_cons_of_mem _ hx)
    cases hs : doc.text s with
    | none =>
      simp only [List.cons_append, selectLoop, hs]
      exact ih text hrest
    | some u =>
      have hu := hpre s (List.mem_cons_self _ _) u hs
      have hnot : ¬ 100 < u.length := by omega
      simp only [List.cons_append, selectLoop, hs, gt_iff_lt, hnot, if_false]
      exact ih u hrest

/-- C5, amended: on a document with a body, the raw text chosen is the text of
the first selector, in the order of `contentSelectors`, that matches with a text
of more than 100 characters (every selector before it matches nothing or a text
of at most 100 characters); in particular when `<main>` matches with more than
100 characters its text is chosen; when no selector matches with more than 100
characters the chosen text is the body text, whatever its length.  The last
conjunct says the same with `chosenByThreshold`. -/
theorem chooseText_first_exceeding (doc : Document) (hbody : doc.text "body" ≠ none) :
    (∀ pre sel post t, contentSelectors = pre ++ sel :: post →
      (∀ s ∈ pre, ∀ u, doc.text s = some u → u.length ≤ 100) →
      doc.text sel = some t → 100 < t.length → chooseText doc = t) ∧
    (∀ t, doc.text "main" = some t → 100 < t.length → chooseText doc = t) ∧
    ((∀ sel ∈ contentSelectors, ∀ t, doc.text sel = some t → t.length ≤ 100) →
      chooseText doc = bodyText doc) ∧
    chooseText doc = chosenByThreshold doc := by
  have hfirst : ∀ pre sel post t, contentSelectors = pre ++ sel :: post →
      (∀ s ∈ pre, ∀ u, doc.text s = some u → u.length ≤ 100) →
      doc.text sel = some t → 100 < t.length → chooseText doc = t := by
    intro pre sel post t hsplit hpre ht hlen
    unfold chooseText
    rw [hsplit, selectLoop_first_exceeding doc pre sel post [] t hpre ht hlen]
    have hne : t ≠ [] := by
      intro h0
      rw [h0] at hlen
      simp at hlen
    have hlt : ¬ t.length < 100 := by omega
    simp [truthy, hne, hlt]
  obtain ⟨b, hb⟩ := Option.ne_none_iff_exists'.mp hbody
  have heq := chooseText_eq_chosenByThreshold doc b hb
  refine ⟨hfirst, ?_, ?_, heq⟩
  · intro t ht hlen
    exact hfirst [] "main" _ t rfl (fun s hs => by simp at hs) ht hlen
  · intro hall
    rw [heq]
    unfold chosenByThreshold
    have hnil : contentSelectors.filterMap (exceedingText doc) = [] := by
      rw [List.filterMap_eq_nil_iff]
      intro sel hs
      cases hsel : doc.text sel with
      | none => simp [exceedingText, hsel, Option.filter]
      | some t =>
        have := hall sel hs t hsel
        simp [exceedingText, hsel, Option.filter]
        omega
    rw [hnil]

set_option maxRecDepth 100000 in
/-- C5, amended, at a concrete page: `<main>` holds 101 characters, `<body>`
holds more, and the `<main>` text is chosen. -/
theorem chooseText_first_exceeding_witness :
    mainDoc.text "body" ≠ none ∧ chooseText mainDoc = List.replicate 101 120 ∧
      chooseText mainDoc ≠ bodyText mainDoc :=
  ⟨by decide,
    (chooseText_first_exceeding mainDoc (by decide)).2.1 (List.replicate 101 120) (by decide)
      (by decide),
    by decide⟩

set_option maxRecDepth 100000 in
/-- Without a body the fallback can differ: when `.content` matches with a text
of exactly 100 characters and nothing matches `body`, no selector matches with
more than 100 characters, the loop ends with the `.content` text, the fallback
test `text.length < 100` is false, and that text is kept although the body text
is empty. -/
theorem chooseText_without_body :
    framesetDoc.text "body" = none ∧
    contentSelectors.filterMap (exceedingText framesetDoc) = [] ∧
    bodyText framesetDoc = [] ∧
    chooseText framesetDoc = List.replicate 100 120 := by
  decide

set_option maxRecDepth 100000 in
/-- C5, the threshold of the claim fails: `<main>` matches with a text of
exactly 100 characters, so of at least 100, and `<body>` holds more.  The loop
does not accept the `<main>` text (`text.length > 100` is false), goes on to
`body`, and the body text is chosen; the rule of the claim (at least 100
characters) selects the `<main>` text. -/
theorem chooseText_boundary :
    boundaryDoc.text "main" = some (List.replicate 100 120) ∧
    (List.replicate 100 120 : JSString).length = 100 ∧
    chooseText boundaryDoc = List.replicate 100 120 ++ lit " and the rest of the page" ∧
    chooseText boundaryDoc = bodyText boundaryDoc ∧
    chooseText boundaryDoc ≠ List.replicate 100 120 ∧
    chosenBySpec boundaryDoc = List.replicate 100 120 := by
  decide

/-! ## Composition, cut and word count -/

/-- C7: the returned text is the beginning of the composition
`"Title: " + title + "\n\nDescription: " + description + "\n\n" + text`, of
length the minimum of 10000 and the length of the composition: never more than
10000 characters, and exactly 10000 when the composition has 10000 or more.
Characters are UTF-16 code units, as `length` and `substring` count them. -/
theorem extractText_text_cut (doc : Document) :
    compose (pageTitle doc) (pageDescription doc) (cleanText (chooseText doc))
      = lit "Title: " ++ pageTitle doc ++ lit "\n\nDescription: " ++ pageDescription doc
          ++ lit "\n\n" ++ cleanText (chooseText doc) ∧
    (extractText doc).text
      = (compose (pageTitle doc) (pageDescription doc) (cleanText (chooseText doc))).take
          (min 10000
            (compose (pageTitle doc) (pageDescription doc) (cleanText (chooseText doc))).length) ∧
    (extractText doc).text.length
      = min 10000
          (compose (pageTitle doc) (pageDescription doc) (cleanText (chooseText doc))).length ∧
    (extractText doc).text.length ≤ 10000 ∧
    (10000 ≤ (compose (pageTitle doc) (pageDescription doc) (cleanText (chooseText doc))).length →
      (extractText doc).text.length = 10000) ∧
    (extractText doc).title = pageTitle doc ∧
    (extractText doc).description = pageDescription doc := by
  refine ⟨rfl, ?_, ?_, ?_, ?_, rfl, rfl⟩
  · simp only [extractText]
    rcases Nat.le_total 10000
        (compose (pageTitle doc) (pageDescription doc) (cleanText (chooseText doc))).length
      with h | h
    · rw [min_eq_left h]
    · rw [min_eq_right h, List.take_of_length_le h, List.take_of_length_le (le_refl _)]
  · simp [extractText]
  · simp [extractText]
  · intro h
    simp only [extractText, List.length_take]
    omega

theorem endsWithWhitespace_cons (a : Nat) (s : JSString) :
    endsWithWhitespace (a :: s) = if s = [] then isWhitespace a else endsWithWhitespace s := by
  cases s with
  | nil => simp [endsWithWhitespace]
  | cons b t => simp [endsWithWhitespace, List.getLast?_cons_cons]

theorem splitRuns_ne_nil (p : Nat → Bool) (b : Bool) (s : JSString) : splitRuns p b s ≠ [] := by
  induction s generalizing b with
  | nil => simp [splitRuns]
  | cons a s ih =>
    by_cases ha : p a = true
    · cases b with
      | true => simpa [splitRuns, ha] using ih true
      | false => simp [splitRuns, ha]
    · simp only [splitRuns, ha, Bool.false_eq_true, if_false]
      cases splitRuns p false s <;> simp

/-- A non-separator character extends the first piece: the number of pieces is unchanged. -/
theorem splitRuns_length_cons (p : Nat → Bool) (b : Bool) (a : Nat) (s : JSString)
    (ha : p a = false) : (splitRuns p b (a :: s)).length = (splitRuns p false s).length := by
  simp only [splitRuns, ha, Bool.false_eq_true, if_false]
  have := splitRuns_ne_nil p false s
  cases h : splitRuns p false s with
  | nil => exact absurd h this
  | cons w ws => simp

/-- The number of pieces `split(/\s+/)` returns, against the number of tokens:
one more for a leading run of whitespace (or an empty text), one more for a
trailing one. -/
theorem splitRuns_length (s : JSString) :
    ∃ w rest, s.splitOnP isWhitespace = w :: rest ∧
      (splitRuns isWhitespace false s).length
        = ((w :: rest).filter (fun x => !x.isEmpty)).length
          + (if endsWithWhitespace s then 1 else 0) + (if w = [] then 1 else 0) ∧
      (splitRuns isWhitespace true s).length
        = ((w :: rest).filter (fun x => !x.isEmpty)).length
          + (if s = [] then 1 else if endsWithWhitespace s then 1 else 0) := by
  induction s with
  | nil =>
    exact ⟨[], [], by simp [List.splitOnP_nil], by simp [splitRuns, endsWithWhitespace],
      by simp [splitRuns]⟩
  | cons a s ih =>
    obtain ⟨w, rest, hsplit, hfalse, htrue⟩ := ih
    by_cases ha : isWhitespace a = true
    · refine ⟨[], w :: rest, by rw [List.splitOnP_cons, hsplit]; simp [ha], ?_, ?_⟩
      · simp only [splitRuns, ha, if_true, Bool.false_eq_true, if_false, List.length_cons, htrue,
          endsWithWhitespace_cons]
        by_cases hs : s = []
        · simp [hs]
        · simp [hs]
      · simp only [splitRuns, ha, if_true, htrue, endsWithWhitespace_cons]
        by_cases hs : s = []
        · simp [hs]
        · simp [hs]
    · have ha' : isWhitespace a = false := by simpa using ha
      refine ⟨a :: w, rest, by rw [List.splitOnP_cons, hsplit]; simp [ha], ?_, ?_⟩
      · rw [splitRuns_length_cons _ _ _ _ ha', hfalse, endsWithWhitespace_cons]
        by_cases hs : s = []
        · subst hs
          simp [List.splitOnP_nil] at hsplit
          obtain ⟨rfl, rfl⟩ := hsplit
          simp [ha', endsWithWhitespace]
        · by_cases hw : w = []
          · simp [hs, hw]
            omega
          · simp [hs, hw]
      · rw [splitRuns_length_cons _ _ _ _ ha', hfalse, endsWithWhitespace_cons]
        by_cases hs : s = []
        · subst hs
          simp [List.splitOnP_nil] at hsplit
          obtain ⟨rfl, rfl⟩ := hsplit
          simp [ha', endsWithWhitespace]
        · by_cases hw : w = []
          · simp [hs, hw]
            omega
          · simp [hs, hw]

/-- For a text that starts with a non-whitespace character, `split(/\s+/)`
returns as many pieces as there are tokens, and one more when the text ends
with whitespace. -/
theorem splitRuns_length_of_head (a : Nat) (s : JSString) (ha : isWhitespace a = false) :
    (splitRuns isWhitespace false (a :: s)).length
      = (tokens (a :: s)).length + (if endsWithWhitespace (a :: s) then 1 else 0) := by
  obtain ⟨w, rest, hsplit, hfalse, _⟩ := splitRuns_length (a :: s)
  rw [hfalse, tokens, hsplit]
  have hw : w ≠ [] := by
    rw [List.splitOnP_cons] at hsplit
    simp only [ha, Bool.false_eq_true, if_false] at hsplit
    obtain ⟨w0, ws, hws⟩ := List.exists_cons_of_ne_nil (List.splitOnP_ne_nil isWhitespace s)
    rw [hws] at hsplit
    simp only [List.modifyHead_cons, List.cons.injEq] at hsplit
    rw [← hsplit.1]
    simp
  simp [hw]

/-- The word count of `extractText`: the number of tokens of the returned
text, plus one when the returned text ends with whitespace. -/
theorem extractText_wordCount (doc : Document) :
    (extractText doc).wordCount
      = (tokens (extractText doc).text).length
        + (if endsWithWhitespace (extractText doc).text then 1 else 0) := by
  have h : ∃ r, (extractText doc).text = 84 :: r := by
    refine ⟨((lit "itle: " ++ pageTitle doc ++ lit "\n\nDescription: " ++ pageDescription doc
      ++ lit "\n\n" ++ cleanText (chooseText doc))).take 9999, ?_⟩
    simp only [extractText, compose]
    have : lit "Title: " = 84 :: lit "itle: " := rfl
    rw [this]
    simp only [List.cons_append]
    rfl
  obtain ⟨r, hr⟩ := h
  have hw : (extractText doc).wordCount
      = (splitRuns isWhitespace false (extractText doc).text).length := rfl
  rw [hw, hr]
  exact splitRuns_length_of_head 84 r rfl

/-- When the returned text does not end with whitespace, the word count is the
number of its tokens. -/
theorem extractText_wordCount_eq_tokens (doc : Document)
    (h : endsWithWhitespace (extractText doc).text = false) :
    (extractText doc).wordCount = (tokens (extractText doc).text).length := by
  rw [extractText_wordCount, h]
  simp

/-- C6, at the failing input: for a page with a title, no description and an
empty body the returned text ends with the two newlines of the template,
`split(/\s+/)` yields a last empty piece, and `wordCount` is 14 while the text
has 13 tokens.  (The text has 80 characters, so the route returns it.) -/
theorem extractText_wordCount_trailing :
    (extractText titleOnlyDoc).text
      = lit "Title: An example page whose title is long enough for the route\n\nDescription: \n\n" ∧
    (extractText titleOnlyDoc).text.length = 80 ∧
    (extractText titleOnlyDoc).wordCount = 14 ∧
    (tokens (extractText titleOnlyDoc).text).length = 13 := by
  decide

/-! ## Text clean-up: the claim -/

/-- C8, at the failing input: the raw text `"a\n\nb"` has a run of two newlines
between two tokens.  The first replacement (`/\s+/g`, commented "Replace
multiple spaces with single space") matches the newlines too and leaves
`"a b"`; the second (`/\n+/g`, commented "Replace multiple newlines") finds no
newline left and changes nothing.  The cleaned text is `"a b"`, with a space
and no newline, and not `"a\nb"`. -/
theorem cleanText_newline_run :
    replaceRuns isWhitespace (lit " ") false (lit "a\n\nb") = lit "a b" ∧
    replaceRuns isNewline (lit "\n") false (lit "a b") = lit "a b" ∧
    cleanText (lit "a\n\nb") = lit "a b" ∧
    cleanText (lit "a\n\nb") ≠ lit "a\nb" ∧
    10 ∉ cleanText (lit "a\n\nb") := by
  decide

/-- The clean-up on every raw text: the cleaned text is the
whitespace-delimited tokens of the raw text joined by single spaces; it neither
starts nor ends with whitespace, has no two adjacent whitespace characters,
keeps every non-whitespace character in order, and cleaning it again returns it
unchanged. -/
theorem cleanText_normal_form (raw : JSString) :
    cleanText raw = joinBySpace (tokens raw) ∧
    (∀ c, (cleanText raw).head? = some c → isWhitespace c = false) ∧
    (∀ c, (cleanText raw).getLast? = some c → isWhitespace c = false) ∧
    NoAdjacentWhitespace (cleanText raw) ∧
    (cleanText raw).filter (fun c => !isWhitespace c) = raw.filter (fun c => !isWhitespace c) ∧
    cleanText (cleanText raw) = cleanText raw := by
  refine ⟨cleanText_eq_join raw, ?_, ?_, cleanText_noAdjacent raw, cleanText_filter raw,
    cleanText_idempotent raw⟩
  · intro c hc
    unfold cleanText at hc
    exact trim_head _ c hc
  · intro c hc
    unfold cleanText at hc
    exact trim_getLast _ c hc

/-! ## Hex codec -/

theorem hexValue_hexDigit (d : Nat) (h : d < 16) : hexValue (hexDigit d) = some d := by
  unfold hexValue hexDigit
  by_cases h10 : d < 10
  · simp only [h10, if_true]
    rw [if_pos (by omega)]
    congr 1
    omega
  · simp only [h10, if_false]
    rw [if_neg (by omega), if_pos (by omega)]
    congr 1
    omega

theorem hexEncode_append (a b : List Nat) : hexEncode (a ++ b) = hexEncode a ++ hexEncode b := by
  induction a with
  | nil => rfl
  | cons x a ih => simp [hexEncode, ih]

theorem hexEncode_length (bs : List Nat) : (hexEncode bs).length = 2 * bs.length := by
  induction bs with
  | nil => rfl
  | cons b bs ih => simp [hexEncode, ih]; omega

/-- Decoding what `toString('hex')` wrote gives the bytes back, and goes on
with what follows. -/
theorem hexDecode_hexEncode_append (bs : List Nat) (tail : JSString) (h : IsBytes bs) :
    hexDecode (hexEncode bs ++ tail) = bs ++ hexDecode tail := by
  induction bs with
  | nil => rfl
  | cons b bs ih =>
    have hb : b < 256 := h b (List.mem_cons_self _ _)
    have hbs : IsBytes bs := fun x hx => h x (List.mem_cons_of_mem _ hx)
    simp only [hexEncode, List.cons_append, hexDecode]
    rw [hexValue_hexDigit _ (by omega), hexValue_hexDigit _ (by omega)]
    simp only [List.append_eq, ih hbs, List.cons.injEq, and_true]
    omega

theorem hexDecode_hexEncode (bs : List Nat) (h : IsBytes bs) : hexDecode (hexEncode bs) = bs := by
  have := hexDecode_hexEncode_append bs [] h
  simpa [hexDecode] using this

theorem hexDigit_lower (d : Nat) (h : d < 16) : isLowerHexDigit (hexDigit d) = true := by
  unfold isLowerHexDigit hexDigit
  by_cases h10 : d < 10
  · simp only [h10, if_true]
    simp
    omega
  · simp only [h10, if_false]
    simp
    omega

/-- The hex form of a buffer consists of lowercase hex digits. -/
theorem hexEncode_lower (bs : List Nat) (h : IsBytes bs) :
    ∀ c ∈ hexEncode bs, isLowerHexDigit c = true := by
  induction bs with
  | nil => simp [hexEncode]
  | cons b bs ih =>
    have hb : b < 256 := h b (List.mem_cons_self _ _)
    have hbs : IsBytes bs := fun x hx => h x (List.mem_cons_of_mem _ hx)
    intro c hc
    simp only [hexEncode, List.mem_cons] at hc
    rcases hc with rfl | rfl | hc
    · exact hexDigit_lower _ (by omega)
    · exact hexDigit_lower _ (by omega)
    · exact ih hbs c hc

/-- The hex form of a buffer holds no colon. -/
theorem colon_not_mem_hexEncode (bs : List Nat) (h : IsBytes bs) : 58 ∉ hexEncode bs := by
  intro hmem
  have := hexEncode_lower bs h 58 hmem
  simp [isLowerHexDigit] at this

/-! ## `split(':')` -/

theorem jsSplit_ne_nil (sep : Nat) (s : JSString) : jsSplit sep s ≠ [] := by
  induction s with
  | nil => simp [jsSplit]
  | cons c cs ih =>
    unfold jsSplit
    by_cases hc : c = sep
    · simp [hc]
    · simp only [hc, if_false]
      cases jsSplit sep cs <;> simp

/-- Splitting a text without the separator gives the text. -/
theorem jsSplit_of_not_mem (sep : Nat) (s : JSString) (h : sep ∉ s) : jsSplit sep s = [s] := by
  induction s with
  | nil => rfl
  | cons c cs ih =>
    have hc : c ≠ sep := fun e => h (e ▸ List.mem_cons_self _ _)
    have hcs : sep ∉ cs := fun e => h (List.mem_cons_of_mem _ e)
    simp [jsSplit, hc, ih hcs]

/-- Splitting at the first separator. -/
theorem jsSplit_append (sep : Nat) (a b : JSString) (h : sep ∉ a) :
    jsSplit sep (a ++ sep :: b) = a :: jsSplit sep b := by
  induction a with
  | nil => simp [jsSplit]
  | cons c cs ih =>
    have hc : c ≠ sep := fun e => h (e ▸ List.mem_cons_self _ _)
    have hcs : sep ∉ cs := fun e => h (List.mem_cons_of_mem _ e)
    simp [jsSplit, hc, ih hcs]

theorem jsSplit_head (s : JSString) : (jsSplit 58 s).headD [] = beforeColon s := by
  induction s with
  | nil => rfl
  | cons c cs ih =>
    unfold jsSplit beforeColon
    by_cases hc : c = 58
    · simp [hc]
    · simp only [hc, if_false]
      have := jsSplit_ne_nil 58 cs
      cases hsp : jsSplit 58 cs with
      | nil => exact absurd hsp this
      | cons w ws =>
        rw [hsp] at ih
        simp only [List.headD_cons] at ih
        simp [List.takeWhile_cons, hc, ih, beforeColon]

theorem jsSplit_second (s : JSString) :
    (jsSplit 58 s).get? 1 = if 58 ∈ s then some (secondPart s) else none := by
  induction s with
  | nil => simp [jsSplit]
  | cons c cs ih =>
    unfold jsSplit
    by_cases hc : c = 58
    · subst hc
      simp only [if_true, List.get?_cons_succ, List.mem_cons, true_or]
      have h0 : (jsSplit 58 cs).get? 0 = some ((jsSplit 58 cs).headD []) := by
        have := jsSplit_ne_nil 58 cs
        cases hsp : jsSplit 58 cs with
        | nil => exact absurd hsp this
        | cons w ws => rfl
      rw [h0, jsSplit_head]
      simp [secondPart, beforeColon, List.dropWhile_cons]
    · simp only [hc, if_false]
      have := jsSplit_ne_nil 58 cs
      cases hsp : jsSplit 58 cs with
      | nil => exact absurd hsp this
      | cons w ws =>
        rw [hsp] at ih
        simp only [List.get?_cons_succ] at ih ⊢
        rw [ih]
        have hc' : ¬ (58 = c) := fun e => hc e.symm
        simp [secondPart, List.dropWhile_cons, hc, hc']

/-! ## UTF-8 codec -/

theorem codeUnits_bmp (cp : Nat) (h : cp < 0x10000) : codeUnits cp = [cp] := if_pos h

theorem codeUnits_astral (cp : Nat) (h : ¬ cp < 0x10000) :
    codeUnits cp = [0xD800 + (cp - 0x10000) / 1024, 0xDC00 + (cp - 0x10000) % 1024] := if_neg h

theorem utf8Decode_one (b0 : Nat) (rest : List Nat) (h : b0 < 0x80) :
    utf8Decode (b0 :: rest) = b0 :: utf8Decode rest := by
  rw [utf8Decode.eq_def]
  simp only [if_pos h]

theorem utf8Decode_two (b0 b1 : Nat) (rest : List Nat) (h0 : 0xC2 ≤ b0 ∧ b0 ≤ 0xDF)
    (h1 : isContinuation b1 = true) :
    utf8Decode (b0 :: b1 :: rest) = ((b0 - 0xC0) * 64 + (b1 - 0x80)) :: utf8Decode rest := by
  have hn : ¬ b0 < 0x80 := by omega
  rw [utf8Decode.eq_def]
  simp only [if_neg hn, if_pos h0, h1, if_true]

theorem utf8Decode_three (b0 b1 b2 : Nat) (rest : List Nat) (h0 : 0xE0 ≤ b0 ∧ b0 ≤ 0xEF)
    (h1 : secondByteOk b0 b1 = true) (h2 : isContinuation b2 = true) :
    utf8Decode (b0 :: b1 :: b2 :: rest)
      = ((b0 - 0xE0) * 4096 + (b1 - 0x80) * 64 + (b2 - 0x80)) :: utf8Decode rest := by
  have hn : ¬ b0 < 0x80 := by omega
  have hn2 : ¬ (0xC2 ≤ b0 ∧ b0 ≤ 0xDF) := by omega
  rw [utf8Decode.eq_def]
  simp only [if_neg hn, if_neg hn2, if_pos h0, h1, h2, if_true]

theorem utf8Decode_four (b0 b1 b2 b3 : Nat) (rest : List Nat) (h0 : 0xF0 ≤ b0 ∧ b0 ≤ 0xF4)
    (h1 : secondByteOk b0 b1 = true) (h2 : isContinuation b2 = true)
    (h3 : isContinuation b3 = true) :
    utf8Decode (b0 :: b1 :: b2 :: b3 :: rest)
      = codeUnits ((b0 - 0xF0) * 262144 + (b1 - 0x80) * 4096 + (b2 - 0x80) * 64 + (b3 - 0x80))
          ++ utf8Decode rest := by
  have hn : ¬ b0 < 0x80 := by omega
  have hn2 : ¬ (0xC2 ≤ b0 ∧ b0 ≤ 0xDF) := by omega
  have hn3 : ¬ (0xE0 ≤ b0 ∧ b0 ≤ 0xEF) := by omega
  rw [utf8Decode.eq_def]
  simp only [if_neg hn, if_neg hn2, if_neg hn3, if_pos h0, h1, h2, h3, if_true]

/-- Decoding the UTF-8 form of one scalar value gives its code units, and goes
on with what follows. -/
theorem utf8Decode_encodeCodePoint (cp : Nat) (tail : List Nat) (h : IsScalar cp) :
    utf8Decode (utf8EncodeCodePoint cp ++ tail) = codeUnits cp ++ utf8Decode tail := by
  unfold IsScalar at h
  unfold utf8EncodeCodePoint
  by_cases h1 : cp < 0x80
  · rw [if_pos h1, codeUnits_bmp cp (by omega)]
    exact utf8Decode_one cp tail h1
  · rw [if_neg h1]
    by_cases h2 : cp < 0x800
    · rw [if_pos h2, codeUnits_bmp cp (by omega)]
      show utf8Decode ((0xC0 + cp / 64) :: (0x80 + cp % 64) :: tail) = _
      rw [utf8Decode_two _ _ _ (by omega) (by simp [isContinuation]; omega)]
      simp only [List.singleton_append, List.cons.injEq, and_true]
      omega
    · rw [if_neg h2]
      by_cases h3 : cp < 0x10000
      · rw [if_pos h3, codeUnits_bmp cp h3]
        show utf8Decode ((0xE0 + cp / 4096) :: (0x80 + cp / 64 % 64) :: (0x80 + cp % 64) :: tail)
          = _
        have hsec : secondByteOk (0xE0 + cp / 4096) (0x80 + cp / 64 % 64) = true := by
          unfold secondByteOk isContinuation
          split_ifs <;> simp <;> omega
        rw [utf8Decode_three _ _ _ _ (by omega) hsec (by simp [isContinuation]; omega)]
        simp only [List.singleton_append, List.cons.injEq, and_true]
        omega
      · rw [if_neg h3]
        show utf8Decode ((0xF0 + cp / 262144) :: (0x80 + cp / 4096 % 64)
          :: (0x80 + cp / 64 % 64) :: (0x80 + cp % 64) :: tail) = _
        have hsec : secondByteOk (0xF0 + cp / 262144) (0x80 + cp / 4096 % 64) = true := by
          unfold secondByteOk isContinuation
          split_ifs <;> simp <;> omega
        rw [utf8Decode_four _ _ _ _ _ (by omega) hsec (by simp [isContinuation]; omega)
          (by simp [isContinuation]; omega)]
        have hval : (0xF0 + cp / 262144 - 0xF0) * 262144 + (0x80 + cp / 4096 % 64 - 0x80) * 4096
            + (0x80 + cp / 64 % 64 - 0x80) * 64 + (0x80 + cp % 64 - 0x80) = cp := by omega
        rw [hval]

/-- The UTF-8 form of a scalar value consists of bytes. -/
theorem utf8EncodeCodePoint_bytes (cp : Nat) (h : cp < 0x110000) :
    IsBytes (utf8EncodeCodePoint cp) := by
  unfold utf8EncodeCodePoint IsBytes
  intro b hb
  split_ifs at hb <;> simp at hb <;> omega

/-- Decoding the UTF-8 form of a well-formed string gives the string back. -/
theorem utf8Decode_utf8Encode (t : JSString) (h : wellFormed t = true) :
    utf8Decode (utf8Encode t) = t := by
  induction t using utf8Encode.induct with
  | case1 => rfl
  | case2 u hsur =>
    simp only [wellFormed, Bool.and_eq_true, Bool.not_eq_true', decide_eq_true_eq] at h
    simp [h.1.1, h.1.2] at hsur
  | case3 u hsur =>
    simp only [wellFormed, Bool.and_eq_true, Bool.not_eq_true', decide_eq_true_eq] at h
    rw [utf8Encode, if_neg hsur]
    have hs : IsScalar u := by
      simp only [isHighSurrogate, isLowSurrogate, Bool.and_eq_false_iff, decide_eq_false_iff_not]
        at h
      unfold IsScalar
      omega
    have := utf8Decode_encodeCodePoint u [] hs
    rw [List.append_nil] at this
    rw [this, codeUnits_bmp u h.2]
    simp [utf8Decode]
  | case4 u v rest hpair ih =>
    simp only [Bool.and_eq_true] at hpair
    rw [wellFormed, if_pos hpair.1] at h
    simp only [Bool.and_eq_true] at h
    rw [utf8Encode, if_pos (by simp [hpair.1, hpair.2])]
    have hu := hpair.1
    have hv := hpair.2
    simp only [isHighSurrogate, isLowSurrogate, Bool.and_eq_true, decide_eq_true_eq] at hu hv
    rw [utf8Decode_encodeCodePoint _ _ (by unfold IsScalar; omega), ih h.2,
      codeUnits_astral _ (by omega)]
    simp only [List.cons_append, List.nil_append, List.cons.injEq, and_true]
    omega
  | case5 u v rest hpair hsur ih =>
    exfalso
    rw [wellFormed] at h
    simp only [Bool.or_eq_true] at hsur
    rcases hsur with hu | hu
    · rw [if_pos hu] at h
      simp only [Bool.and_eq_true] at h
      exact hpair (by simp [hu, h.1])
    · by_cases hh : isHighSurrogate u = true
      · simp only [isHighSurrogate, isLowSurrogate, Bool.and_eq_true, decide_eq_true_eq] at hh hu
        omega
      · rw [if_neg hh] at h
        simp [hu] at h
  | case6 u v rest hpair hsur ih =>
    simp only [Bool.or_eq_true, not_or, Bool.not_eq_true] at hsur
    rw [wellFormed, if_neg (by simp [hsur.1])] at h
    simp only [Bool.and_eq_true, Bool.not_eq_true', decide_eq_true_eq] at h
    rw [utf8Encode, if_neg hpair, if_neg (by simp [hsur.1, hsur.2])]
    have hs : IsScalar u := by
      have h1 := hsur.1
      have h2 := hsur.2
      simp only [isHighSurrogate, isLowSurrogate, Bool.and_eq_false_iff, decide_eq_false_iff_not]
        at h1 h2
      unfold IsScalar
      omega
    rw [utf8Decode_encodeCodePoint _ _ hs, ih h.2, codeUnits_bmp u h.1.2]
    rfl

/-! ## CBC chaining -/

theorem xorBytes_length (a b : List Nat) : (xorBytes a b).length = min a.length b.length := by
  simp [xorBytes]

theorem xorBytes_cancel (a b : List Nat) (h : a.length = b.length) :
    xorBytes (xorBytes a b) b = a := by
  induction a generalizing b with
  | nil => simp [xorBytes]
  | cons x a ih =>
    cases b with
    | nil => simp at h
    | cons y b =>
      simp only [List.length_cons, Nat.add_right_cancel_iff] at h
      have := ih b h
      simp only [xorBytes, List.zipWith_cons_cons, List.cons.injEq] at this ⊢
      exact ⟨Nat.xor_cancel_right y x, this⟩

theorem xorBytes_bytes (a b : List Nat) (ha : IsBytes a) (hb : IsBytes b) :
    IsBytes (xorBytes a b) := by
  induction a generalizing b with
  | nil => simp [xorBytes, IsBytes]
  | cons x a ih =>
    cases b with
    | nil => simp [xorBytes, IsBytes]
    | cons y b =>
      intro c hc
      simp only [xorBytes, List.zipWith_cons_cons, List.mem_cons] at hc
      rcases hc with rfl | hc
      · have hx : x < 2 ^ 8 := ha x (List.mem_cons_self _ _)
        have hy : y < 2 ^ 8 := hb y (List.mem_cons_self _ _)
        exact Nat.xor_lt_two_pow hx hy
      · exact ih b (fun z hz => ha z (List.mem_cons_of_mem _ hz))
          (fun z hz => hb z (List.mem_cons_of_mem _ hz)) c hc

theorem isBytes_append {a b : List Nat} (ha : IsBytes a) (hb : IsBytes b) : IsBytes (a ++ b) := by
  intro c hc
  rcases List.mem_append.mp hc with h | h
  · exact ha c h
  · exact hb c h

theorem isBytes_take {a : List Nat} (n : Nat) (ha : IsBytes a) : IsBytes (a.take n) :=
  fun c hc => ha c (List.mem_of_mem_take hc)

theorem isBytes_drop {a : List Nat} (n : Nat) (ha : IsBytes a) : IsBytes (a.drop n) :=
  fun c hc => ha c (List.mem_of_mem_drop hc)

/-- The CBC output and the chaining value: length and bytes. -/
theorem encryptBlocks_block (C : Crypto) (hC : C.Lawful) (key : List Nat) (n : Nat)
    (chain data : List Nat) (hkey : key.length = 32) (hkeyb : IsBytes key)
    (hchain : chain.length = 16) (hchainb : IsBytes chain) (hdatab : IsBytes data)
    (hdata : 16 * n ≤ data.length) :
    (encryptBlocks C key n chain data).1.length = 16 * n ∧
      (encryptBlocks C key n chain data).2.length = 16 ∧
      IsBytes (encryptBlocks C key n chain data).1 ∧
      IsBytes (encryptBlocks C key n chain data).2 := by
  induction n generalizing chain data with
  | zero => exact ⟨rfl, hchain, by simp [encryptBlocks, IsBytes], hchainb⟩
  | succ n ih =>
    have hx : (xorBytes (data.take 16) chain).length = 16 := by
      rw [xorBytes_length, List.length_take, hchain]
      omega
    have hxb : IsBytes (xorBytes (data.take 16) chain) :=
      xorBytes_bytes _ _ (isBytes_take 16 hdatab) hchainb
    have hc := hC.block_encrypted key _ hkey hkeyb hx hxb
    have hcl : (C.encryptBlock key (xorBytes (List.take 16 data) chain)).length = 16 := hc.1
    have := ih (C.encryptBlock key (xorBytes (data.take 16) chain)) (data.drop 16) hcl hc.2
      (isBytes_drop 16 hdatab) (by rw [List.length_drop]; omega)
    simp only [encryptBlocks, blockSize, List.length_append]
    refine ⟨?_, this.2.1, isBytes_append hc.2 this.2.2.1, this.2.2.2⟩
    rw [this.1, hcl]
    omega

/-- The first `n` blocks do not depend on what follows them. -/
theorem encryptBlocks_append (C : Crypto) (key : List Nat) (n : Nat) (chain d1 d2 : List Nat)
    (h : 16 * n ≤ d1.length) :
    encryptBlocks C key n chain (d1 ++ d2) = encryptBlocks C key n chain d1 := by
  induction n generalizing chain d1 with
  | zero => simp [encryptBlocks]
  | succ n ih =>
    have h16 : 16 ≤ d1.length := by omega
    simp only [encryptBlocks, blockSize]
    rw [List.take_append_of_le_length h16, List.drop_append_of_le_length h16,
      ih _ (d1.drop 16) (by rw [List.length_drop]; omega)]

/-- One more block: the first `n` blocks, then the next one chained to them. -/
theorem encryptBlocks_succ (C : Crypto) (key : List Nat) (n : Nat) (chain data : List Nat) :
    (encryptBlocks C key (n + 1) chain data).1
      = (encryptBlocks C key n chain data).1
        ++ C.encryptBlock key
            (xorBytes ((data.drop (16 * n)).take 16) (encryptBlocks C key n chain data).2) := by
  induction n generalizing chain data with
  | zero => simp [encryptBlocks, blockSize]
  | succ n ih =>
    rw [encryptBlocks]
    simp only []
    rw [ih]
    simp only [encryptBlocks, blockSize, List.append_assoc, List.drop_drop]
    have : 16 * (n + 1) = 16 + 16 * n := by omega
    rw [this]

/-- CBC decryption undoes CBC encryption, whatever follows the ciphertext. -/
theorem decryptBlocks_encryptBlocks (C : Crypto) (hC : C.Lawful) (key : List Nat) (n : Nat)
    (chain data extra : List Nat) (hkey : key.length = 32) (hkeyb : IsBytes key)
    (hlen : chain.length = 16) (hchain : IsBytes chain)
    (hdata : IsBytes data) (hn : 16 * n ≤ data.length) :
    (decryptBlocks C key n chain ((encryptBlocks C key n chain data).1 ++ extra)).1
      = data.take (16 * n) := by
  induction n generalizing chain data with
  | zero => simp [decryptBlocks]
  | succ n ih =>
    have htake : (data.take 16).length = 16 := by rw [List.length_take]; omega
    have hx : (xorBytes (data.take 16) chain).length = 16 := by
      rw [xorBytes_length, htake, hlen]
      rfl
    have hxb : IsBytes (xorBytes (data.take 16) chain) :=
      xorBytes_bytes _ _ (isBytes_take 16 hdata) hchain
    have hc := hC.block_encrypted key _ hkey hkeyb hx hxb
    have hce : (C.encryptBlock key (xorBytes (data.take 16) chain)).length = 16 := hc.1
    have hc16 : 16 ≤ (C.encryptBlock key (xorBytes (data.take 16) chain)).length := by omega
    simp only [encryptBlocks, decryptBlocks, blockSize, List.append_assoc]
    rw [List.take_append_of_le_length hc16, List.drop_append_of_le_length hc16,
      List.take_of_length_le (by omega), List.drop_of_length_le (by omega), List.nil_append,
      hC.block_restored key _ hkey hkeyb hx hxb, xorBytes_cancel _ _ (by rw [htake, hlen]),
      ih _ (data.drop 16) hce hc.2 (isBytes_drop 16 hdata) (by rw [List.length_drop]; omega)]
    have : 16 * (n + 1) = 16 + 16 * n := by omega
    rw [this, List.take_add]

theorem padding_length (data : List Nat) : (padding data).length = 16 - data.length % 16 := by
  simp [padding]

theorem padding_bytes (data : List Nat) : IsBytes (padding data) := by
  intro b hb
  simp only [padding, List.mem_replicate] at hb
  omega

/-- The ciphertext is the CBC encryption of the padded data. -/
theorem ciphertextOf_eq (C : Crypto) (key iv data : List Nat) :
    ciphertextOf C key iv data
      = (encryptBlocks C key (data.length / 16 + 1) iv (data ++ padding data)).1 := by
  have hq : 16 * (data.length / 16) ≤ data.length := Nat.mul_div_le _ _
  have hdrop : (data.drop (16 * (data.length / 16))).length = data.length % 16 := by
    rw [List.length_drop]
    omega
  rw [encryptBlocks_succ, encryptBlocks_append C key _ iv data _ hq]
  simp only [ciphertextOf, cipherUpdate, cipherFinal, blockSize, List.nil_append]
  congr 3
  rw [List.drop_append_of_le_length hq, hdrop]
  rw [List.take_of_length_le]
  · rfl
  · rw [List.length_append, hdrop, padding_length]
    omega

/-- The ciphertext has `16 * (n / 16 + 1)` bytes for `n` bytes of data. -/
theorem ciphertextOf_block (C : Crypto) (hC : C.Lawful) (key iv data : List Nat)
    (hkey : key.length = 32) (hkeyb : IsBytes key) (hiv : iv.length = 16) (hivb : IsBytes iv)
    (hdata : IsBytes data) :
    (ciphertextOf C key iv data).length = 16 * (data.length / 16 + 1) ∧
      IsBytes (ciphertextOf C key iv data) := by
  rw [ciphertextOf_eq]
  have := encryptBlocks_block C hC key (data.length / 16 + 1) iv (data ++ padding data) hkey hkeyb
    hiv hivb (isBytes_append hdata (padding_bytes data))
    (by rw [List.length_append, padding_length]; omega)
  exact ⟨this.1, this.2.2.1⟩

/-- What `decipher.update` returns and keeps for the ciphertext of `data`: it
returns the complete blocks of `data` and keeps back the last block, the rest
of `data` with its padding. -/
theorem decipherUpdate_ciphertextOf (C : Crypto) (hC : C.Lawful) (key iv data : List Nat)
    (hkey : key.length = 32) (hkeyb : IsBytes key)
    (hiv : iv.length = 16) (hivb : IsBytes iv) (hdata : IsBytes data) :
    (decipherUpdate C { key := key, chain := iv, buf := [], held := none }
        (ciphertextOf C key iv data)).2 = data.take (16 * (data.length / 16)) ∧
    (decipherUpdate C { key := key, chain := iv, buf := [], held := none }
        (ciphertextOf C key iv data)).1.held
      = some (data.drop (16 * (data.length / 16)) ++ padding data) ∧
    (decipherUpdate C { key := key, chain := iv, buf := [], held := none }
        (ciphertextOf C key iv data)).1.buf = [] := by
  have hq : 16 * (data.length / 16) ≤ data.length := Nat.mul_div_le _ _
  have hlen := (ciphertextOf_block C hC key iv data hkey hkeyb hiv hivb hdata).1
  have hne : (ciphertextOf C key iv data).isEmpty = false := by
    cases h : ciphertextOf C key iv data with
    | nil => rw [h] at hlen; simp at hlen
    | cons a l => rfl
  have hpl : (data ++ padding data).length = 16 * (data.length / 16 + 1) := by
    rw [List.length_append, padding_length]
    omega
  have hdec : (decryptBlocks C key (data.length / 16 + 1) iv (ciphertextOf C key iv data)).1
      = data ++ padding data := by
    have := decryptBlocks_encryptBlocks C hC key (data.length / 16 + 1) iv (data ++ padding data)
      [] hkey hkeyb hiv hivb (isBytes_append hdata (padding_bytes data)) (by rw [hpl])
    rw [List.append_nil, ← ciphertextOf_eq] at this
    rw [this, List.take_of_length_le (by rw [hpl])]
  have hn : (ciphertextOf C key iv data).length / 16 = data.length / 16 + 1 := by
    rw [hlen]
    omega
  have hrest : ((ciphertextOf C key iv data).drop (16 * (data.length / 16 + 1))).isEmpty = true := by
    rw [List.drop_of_length_le (by rw [hlen])]
    rfl
  have hsub : (data ++ padding data).length - 16 = 16 * (data.length / 16) := by
    rw [hpl]
    omega
  simp only [decipherUpdate, hne, Bool.false_eq_true, if_false, List.nil_append, blockSize, hn,
    hrest, if_true, Option.getD_none, hdec, hsub]
  refine ⟨?_, ?_, trivial⟩
  · rw [List.take_append_of_le_length hq]
  · rw [List.drop_append_of_le_length hq]

/-- The method `final` accepts the kept block and removes the padding. -/
theorem decipherFinal_padded (st : CipherState) (data : List Nat)
    (hheld : st.held = some (data.drop (16 * (data.length / 16)) ++ padding data))
    (hbuf : st.buf = []) :
    decipherFinal st = .ok (data.drop (16 * (data.length / 16))) := by
  have hdrop : (data.drop (16 * (data.length / 16))).length = data.length % 16 := by
    rw [List.length_drop]
    have := Nat.mul_div_le data.length 16
    omega
  have hk1 : 16 - data.length % 16 = (15 - data.length % 16) + 1 := by omega
  have hlast : (data.drop (16 * (data.length / 16)) ++ padding data).getLastD 0
      = 16 - data.length % 16 := by
    unfold padding
    rw [hk1, List.replicate_succ', ← List.append_assoc]
    simp
  have hpos : ¬ (16 - data.length % 16 = 0 ∨ 16 - data.length % 16 > 16) := by omega
  have hsplit : 16 - (16 - data.length % 16) = (data.drop (16 * (data.length / 16))).length := by
    rw [hdrop]
    omega
  unfold decipherFinal
  simp only [hheld, hbuf, List.isEmpty_nil, Bool.not_true, Bool.false_eq_true, if_false, hlast,
    blockSize, hpos]
  rw [hsplit, List.drop_left, List.take_left]
  simp [padding]

/-! ## AES-256: the inverse cipher undoes the cipher -/

theorem xor_cancel_both (p q k : Nat) : (p ^^^ k) ^^^ (q ^^^ k) = p ^^^ q := by
  have h : (p ^^^ k) ^^^ (q ^^^ k) = (p ^^^ q) ^^^ (k ^^^ k) := by ac_rfl
  rw [h, Nat.xor_self, Nat.xor_zero]

/-- The map `xtime` is additive. -/
theorem xtime_xor (a b : Nat) : xtime (a ^^^ b) = xtime a ^^^ xtime b := by
  have hshift : (a ^^^ b) <<< 1 = (a <<< 1) ^^^ (b <<< 1) := by
    apply Nat.eq_of_testBit_eq
    intro i
    simp only [Nat.testBit_shiftLeft, Nat.testBit_xor]
    cases decide (i ≥ 1) <;> simp
  unfold xtime
  rw [hshift, Nat.testBit_xor]
  cases a.testBit 7 <;> cases b.testBit 7
  · simp
  · simp [Nat.xor_assoc]
  · simp only [Bool.bne_false, if_true, Bool.false_eq_true, if_false, Nat.xor_zero]
    ac_rfl
  · simp only [bne_self_eq_false, Bool.false_eq_true, if_false, Nat.xor_zero, if_true]
    rw [xor_cancel_both]

theorem xtime_lt (b : Nat) (h : b < 256) : xtime b < 256 := by
  have : ∀ x : Fin 256, xtime x.val < 256 := by decide!
  exact this ⟨b, h⟩

theorem xor_transpose (a1 a2 a3 a4 b1 b2 b3 b4 c1 c2 c3 c4 d1 d2 d3 d4 : Nat) :
    (a1 ^^^ b1 ^^^ c1 ^^^ d1) ^^^ (a2 ^^^ b2 ^^^ c2 ^^^ d2) ^^^ (a3 ^^^ b3 ^^^ c3 ^^^ d3)
        ^^^ (a4 ^^^ b4 ^^^ c4 ^^^ d4)
      = (a1 ^^^ a2 ^^^ a3 ^^^ a4) ^^^ (b1 ^^^ b2 ^^^ b3 ^^^ b4) ^^^ (c1 ^^^ c2 ^^^ c3 ^^^ c4)
        ^^^ (d1 ^^^ d2 ^^^ d3 ^^^ d4) := by
  ac_rfl

theorem mul3_xor (a b : Nat) : mul3 (a ^^^ b) = mul3 a ^^^ mul3 b := by
  simp only [mul3, xtime_xor]
  ac_rfl

theorem mul9_xor (a b : Nat) : mul9 (a ^^^ b) = mul9 a ^^^ mul9 b := by
  simp only [mul9, xtime_xor]
  ac_rfl

theorem mul11_xor (a b : Nat) : mul11 (a ^^^ b) = mul11 a ^^^ mul11 b := by
  simp only [mul11, xtime_xor]
  ac_rfl

theorem mul13_xor (a b : Nat) : mul13 (a ^^^ b) = mul13 a ^^^ mul13 b := by
  simp only [mul13, xtime_xor]
  ac_rfl

theorem mul14_xor (a b : Nat) : mul14 (a ^^^ b) = mul14 a ^^^ mul14 b := by
  simp only [mul14, xtime_xor]
  ac_rfl

/-- The products of the rows of the InvMixColumns matrix with the columns of
the MixColumns matrix, on one byte: the identity matrix. -/
theorem mix_identities : ∀ x : Fin 256,
    (mul14 (xtime x.val) ^^^ mul11 x.val ^^^ mul13 x.val ^^^ mul9 (mul3 x.val) = x.val) ∧
    (mul14 (mul3 x.val) ^^^ mul11 (xtime x.val) ^^^ mul13 x.val ^^^ mul9 x.val = 0) ∧
    (mul14 x.val ^^^ mul11 (mul3 x.val) ^^^ mul13 (xtime x.val) ^^^ mul9 x.val = 0) ∧
    (mul14 x.val ^^^ mul11 x.val ^^^ mul13 (mul3 x.val) ^^^ mul9 (xtime x.val) = 0) ∧
    (mul9 (xtime x.val) ^^^ mul14 x.val ^^^ mul11 x.val ^^^ mul13 (mul3 x.val) = 0) ∧
    (mul9 (mul3 x.val) ^^^ mul14 (xtime x.val) ^^^ mul11 x.val ^^^ mul13 x.val = x.val) ∧
    (mul9 x.val ^^^ mul14 (mul3 x.val) ^^^ mul11 (xtime x.val) ^^^ mul13 x.val = 0) ∧
    (mul9 x.val ^^^ mul14 x.val ^^^ mul11 (mul3 x.val) ^^^ mul13 (xtime x.val) = 0) ∧
    (mul13 (xtime x.val) ^^^ mul9 x.val ^^^ mul14 x.val ^^^ mul11 (mul3 x.val) = 0) ∧
    (mul13 (mul3 x.val) ^^^ mul9 (xtime x.val) ^^^ mul14 x.val ^^^ mul11 x.val = 0) ∧
    (mul13 x.val ^^^ mul9 (mul3 x.val) ^^^ mul14 (xtime x.val) ^^^ mul11 x.val = x.val) ∧
    (mul13 x.val ^^^ mul9 x.val ^^^ mul14 (mul3 x.val) ^^^ mul11 (xtime x.val) = 0) ∧
    (mul11 (xtime x.val) ^^^ mul13 x.val ^^^ mul9 x.val ^^^ mul14 (mul3 x.val) = 0) ∧
    (mul11 (mul3 x.val) ^^^ mul13 (xtime x.val) ^^^ mul9 x.val ^^^ mul14 x.val = 0) ∧
    (mul11 x.val ^^^ mul13 (mul3 x.val) ^^^ mul9 (xtime x.val) ^^^ mul14 x.val = 0) ∧
    (mul11 x.val ^^^ mul13 x.val ^^^ mul9 (mul3 x.val) ^^^ mul14 (xtime x.val) = x.val) := by
  decide!

/-- The transformation InvMixColumns undoes MixColumns on bytes. -/
theorem invMixColumns_mixColumns (st : List Nat) (h : IsBytes st) :
    invMixColumns (mixColumns st) = st := by
  induction st using mixColumns.induct with
  | case1 a b c d rest ih =>
    have ha : a < 256 := h a (by simp)
    have hb : b < 256 := h b (by simp)
    have hc : c < 256 := h c (by simp)
    have hd : d < 256 := h d (by simp)
    have hrest : IsBytes rest := fun x hx => h x (by simp [hx])
    have ia := mix_identities ⟨a, ha⟩
    have ib := mix_identities ⟨b, hb⟩
    have ic := mix_identities ⟨c, hc⟩
    have id := mix_identities ⟨d, hd⟩
    simp only at ia ib ic id
    obtain ⟨a00, a01, a02, a03, a10, a11, a12, a13, a20, a21, a22, a23, a30, a31, a32, a33⟩ := ia
    obtain ⟨b00, b01, b02, b03, b10, b11, b12, b13, b20, b21, b22, b23, b30, b31, b32, b33⟩ := ib
    obtain ⟨c00, c01, c02, c03, c10, c11, c12, c13, c20, c21, c22, c23, c30, c31, c32, c33⟩ := ic
    obtain ⟨d00, d01, d02, d03, d10, d11, d12, d13, d20, d21, d22, d23, d30, d31, d32, d33⟩ := id
    rw [mixColumns, invMixColumns, ih hrest]
    simp only [mul9_xor, mul11_xor, mul13_xor, mul14_xor, List.cons.injEq, and_true]
    refine ⟨?_, ?_, ?_, ?_⟩
    · rw [xor_transpose, a00, b01, c02, d03]
      simp
    · rw [xor_transpose, a10, b11, c12, d13]
      simp
    · rw [xor_transpose, a20, b21, c22, d23]
      simp
    · rw [xor_transpose, a30, b31, c32, d33]
      simp
  | case2 st hshape =>
    rw [mixColumns]
    · rw [invMixColumns]
      exact hshape
    · exact hshape

theorem xor_lt_256 {a b : Nat} (ha : a < 256) (hb : b < 256) : a ^^^ b < 256 := by
  have ha' : a < 2 ^ 8 := ha
  have hb' : b < 2 ^ 8 := hb
  exact Nat.xor_lt_two_pow ha' hb'

theorem sbox_length : sbox.length = 256 := by decide!

theorem subByte_lt (b : Nat) : subByte b < 256 := by
  by_cases h : b < 256
  · have : ∀ x : Fin 256, subByte x.val < 256 := by decide!
    exact this ⟨b, h⟩
  · unfold subByte
    rw [List.getD_eq_default _ _ (by rw [sbox_length]; omega)]
    decide

theorem invSubByte_subByte (b : Nat) (h : b < 256) : invSubByte (subByte b) = b := by
  have : ∀ x : Fin 256, invSubByte (subByte x.val) = x.val := by decide!
  exact this ⟨b, h⟩

theorem map_invSubByte_subByte (st : List Nat) (h : IsBytes st) :
    (st.map subByte).map invSubByte = st := by
  induction st with
  | nil => rfl
  | cons a st ih =>
    simp only [List.map_cons, List.cons.injEq]
    exact ⟨invSubByte_subByte a (h a (List.mem_cons_self _ _)),
      ih (fun x hx => h x (List.mem_cons_of_mem _ hx))⟩

theorem isBytes_map_subByte (st : List Nat) : IsBytes (st.map subByte) := by
  intro b hb
  obtain ⟨x, _, rfl⟩ := List.mem_map.mp hb
  exact subByte_lt x

theorem invShiftRows_shiftRows (st : List Nat) : invShiftRows (shiftRows st) = st := by
  unfold shiftRows
  split
  · rfl
  · rename_i hshape
    unfold invShiftRows
    split
    · rename_i s0 s1 s2 s3 s4 s5 s6 s7 s8 s9 s10 s11 s12 s13 s14 s15
      exact absurd rfl (hshape s0 s1 s2 s3 s4 s5 s6 s7 s8 s9 s10 s11 s12 s13 s14 s15)
    · rfl

theorem shiftRows_length (st : List Nat) : (shiftRows st).length = st.length := by
  unfold shiftRows
  split <;> rfl

theorem shiftRows_bytes (st : List Nat) (h : IsBytes st) : IsBytes (shiftRows st) := by
  unfold shiftRows
  split
  · intro b hb
    apply h
    simp only [List.mem_cons, List.mem_singleton, List.not_mem_nil, or_false] at hb ⊢
    tauto
  · exact h

theorem mixColumns_length (st : List Nat) : (mixColumns st).length = st.length := by
  induction st using mixColumns.induct with
  | case1 a b c d rest ih => simp [mixColumns, ih]
  | case2 st hshape => rw [mixColumns]; exact hshape

theorem mul3_lt (b : Nat) (h : b < 256) : mul3 b < 256 := xor_lt_256 (xtime_lt b h) h

theorem mixColumns_bytes (st : List Nat) (h : IsBytes st) : IsBytes (mixColumns st) := by
  induction st using mixColumns.induct with
  | case1 a b c d rest ih =>
    have ha : a < 256 := h a (by simp)
    have hb : b < 256 := h b (by simp)
    have hc : c < 256 := h c (by simp)
    have hd : d < 256 := h d (by simp)
    have hrest : IsBytes rest := fun x hx => h x (by simp [hx])
    rw [mixColumns]
    intro x hx
    simp only [List.mem_cons] at hx
    rcases hx with rfl | rfl | rfl | rfl | hx
    · exact xor_lt_256 (xor_lt_256 (xor_lt_256 (xtime_lt a ha) (mul3_lt b hb)) hc) hd
    · exact xor_lt_256 (xor_lt_256 (xor_lt_256 ha (xtime_lt b hb)) (mul3_lt c hc)) hd
    · exact xor_lt_256 (xor_lt_256 (xor_lt_256 ha hb) (xtime_lt c hc)) (mul3_lt d hd)
    · exact xor_lt_256 (xor_lt_256 (xor_lt_256 (mul3_lt a ha) hb) hc) (xtime_lt d hd)
    · exact ih hrest x hx
  | case2 st hshape =>
    rw [mixColumns]
    · exact h
    · exact hshape

/-- A round of the cipher keeps the state a block of bytes. -/
theorem aesRound_block (rk st : List Nat) (hrk : rk.length = 16) (hrkb : IsBytes rk)
    (hst : st.length = 16) :
    (aesRound rk st).length = 16 ∧ IsBytes (aesRound rk st) := by
  unfold aesRound
  refine ⟨?_, ?_⟩
  · rw [xorBytes_length, mixColumns_length, shiftRows_length, List.length_map, hst, hrk]
    rfl
  · exact xorBytes_bytes _ _
      (mixColumns_bytes _ (shiftRows_bytes _ (isBytes_map_subByte st))) hrkb

/-- A round of the inverse cipher undoes the round of the cipher with the same key. -/
theorem aesInvRound_aesRound (rk st : List Nat) (hrk : rk.length = 16)
    (hst : st.length = 16) (hstb : IsBytes st) :
    aesInvRound rk (aesRound rk st) = st := by
  unfold aesInvRound aesRound
  rw [xorBytes_cancel _ _
      (by rw [mixColumns_length, shiftRows_length, List.length_map, hst, hrk]),
    invMixColumns_mixColumns _ (shiftRows_bytes _ (isBytes_map_subByte st)),
    invShiftRows_shiftRows, map_invSubByte_subByte st hstb]

/-- The cipher rounds, one more at the end. -/
theorem aesRounds_succ (expanded : List Nat) (n r : Nat) (st : List Nat) :
    aesRounds expanded (n + 1) r st
      = aesRound (roundKey expanded (r + n)) (aesRounds expanded n r st) := by
  induction n generalizing r st with
  | zero => rfl
  | succ n ih =>
    rw [aesRounds, ih]
    have : r + 1 + n = r + (n + 1) := by omega
    rw [this]
    rfl

/-- The rounds of the cipher keep the state a block of bytes. -/
theorem aesRounds_block (expanded : List Nat) (n r : Nat) (st : List Nat)
    (hrk : ∀ i, r ≤ i → i < r + n → (roundKey expanded i).length = 16 ∧
      IsBytes (roundKey expanded i))
    (hst : st.length = 16) (hstb : IsBytes st) :
    (aesRounds expanded n r st).length = 16 ∧ IsBytes (aesRounds expanded n r st) := by
  induction n generalizing r st with
  | zero => exact ⟨hst, hstb⟩
  | succ n ih =>
    rw [aesRounds]
    have h0 := hrk r (le_refl _) (by omega)
    have hb := aesRound_block (roundKey expanded r) st h0.1 h0.2 hst
    exact ih (r + 1) _ (fun i hi1 hi2 => hrk i (by omega) (by omega)) hb.1 hb.2

/-- The rounds of the inverse cipher undo the rounds of the cipher. -/
theorem aesInvRounds_aesRounds (expanded : List Nat) (n r : Nat) (st : List Nat)
    (hrk : ∀ i, r ≤ i → i < r + n → (roundKey expanded i).length = 16 ∧
      IsBytes (roundKey expanded i))
    (hst : st.length = 16) (hstb : IsBytes st) :
    aesInvRounds expanded n (r + n - 1) (aesRounds expanded n r st) = st := by
  induction n generalizing st with
  | zero => rfl
  | succ n ih =>
    rw [aesRounds_succ, aesInvRounds]
    have hk := hrk (r + n) (by omega) (by omega)
    have hb := aesRounds_block expanded n r st
      (fun i hi1 hi2 => hrk i hi1 (by omega)) hst hstb
    have h1 : r + (n + 1) - 1 = r + n := by omega
    rw [h1, aesInvRound_aesRound _ _ hk.1 hb.1 hb.2]
    exact ih st (fun i hi1 hi2 => hrk i hi1 (by omega)) hst hstb

theorem roundConstant_lt (i : Nat) : roundConstant i < 256 := by
  induction i using roundConstant.induct with
  | case1 => decide
  | case2 => decide
  | case3 i _ ih =>
    rw [roundConstant]
    · exact xtime_lt _ ih
    · assumption

/-- The word the key expansion appends: four bytes. -/
theorem expandKey_step (w : List Nat) (hw : 4 ≤ w.length) (hwb : IsBytes w) (t : List Nat)
    (ht : t = if w.length / 4 % 8 = 0 then
        xorBytes (((w.drop (w.length - 4)).rotate 1).map subByte)
          [roundConstant (w.length / 4 / 8), 0, 0, 0]
      else if w.length / 4 % 8 = 4 then (w.drop (w.length - 4)).map subByte
      else w.drop (w.length - 4)) :
    (xorBytes ((w.drop (w.length - 32)).take 4) t).length = 4 ∧
      IsBytes (xorBytes ((w.drop (w.length - 32)).take 4) t) := by
  have hlast : (w.drop (w.length - 4)).length = 4 := by
    rw [List.length_drop]
    omega
  have hback : ((w.drop (w.length - 32)).take 4).length = 4 := by
    rw [List.length_take, List.length_drop]
    omega
  have hbackb : IsBytes ((w.drop (w.length - 32)).take 4) := isBytes_take 4 (isBytes_drop _ hwb)
  have htl : t.length = 4 ∧ IsBytes t := by
    rw [ht]
    split_ifs
    · refine ⟨by simp [xorBytes_length, hlast], xorBytes_bytes _ _ (isBytes_map_subByte _) ?_⟩
      intro b hb
      simp only [List.mem_cons, List.mem_singleton, List.not_mem_nil, or_false] at hb
      rcases hb with rfl | rfl | rfl | rfl
      · exact roundConstant_lt _
      · decide
      · decide
      · decide
    · exact ⟨by rw [List.length_map, hlast], isBytes_map_subByte _⟩
    · exact ⟨hlast, isBytes_drop _ hwb⟩
  exact ⟨by rw [xorBytes_length, hback, htl.1]; rfl, xorBytes_bytes _ _ hbackb htl.2⟩

/-- The expanded key: length and bytes. -/
theorem expandKey_spec (n : Nat) (w : List Nat) (hw : 4 ≤ w.length) (hwb : IsBytes w) :
    (expandKey n w).length = w.length + 4 * n ∧ IsBytes (expandKey n w) := by
  induction n generalizing w with
  | zero => exact ⟨rfl, hwb⟩
  | succ n ih =>
    rw [expandKey]
    obtain ⟨hl, hb⟩ := expandKey_step w hw hwb _ rfl
    have := ih _ (by rw [List.length_append]; omega) (isBytes_append hwb hb)
    refine ⟨?_, this.2⟩
    rw [this.1, List.length_append, hl]
    omega

/-- The round keys of a 32-byte key: 15 blocks of bytes. -/
theorem roundKey_spec (key : List Nat) (hkey : key.length = 32) (hkeyb : IsBytes key) (i : Nat)
    (hi : i ≤ 14) :
    (roundKey (expandKey 52 key) i).length = 16 ∧ IsBytes (roundKey (expandKey 52 key) i) := by
  obtain ⟨hl, hb⟩ := expandKey_spec 52 key (by omega) hkeyb
  unfold roundKey
  refine ⟨?_, isBytes_take 16 (isBytes_drop _ hb)⟩
  rw [List.length_take, List.length_drop, hl, hkey]
  omega

/-- The state after the 13 full rounds of the cipher is a block of bytes. -/
theorem aesRounds13_block (key block : List Nat) (hkey : key.length = 32) (hkeyb : IsBytes key)
    (hblock : block.length = 16) (hblockb : IsBytes block) :
    (aesRounds (expandKey 52 key) 13 1
        (xorBytes block (roundKey (expandKey 52 key) 0))).length = 16 ∧
      IsBytes (aesRounds (expandKey 52 key) 13 1
        (xorBytes block (roundKey (expandKey 52 key) 0))) := by
  have h0 := roundKey_spec key hkey hkeyb 0 (by omega)
  exact aesRounds_block (expandKey 52 key) 13 1 _
    (fun i _ hi2 => roundKey_spec key hkey hkeyb i (by omega))
    (by rw [xorBytes_length, hblock, h0.1]; rfl) (xorBytes_bytes _ _ hblockb h0.2)

/-- The cipher maps a block of bytes to a block of bytes. -/
theorem aesEncryptBlock_block (key block : List Nat) (hkey : key.length = 32)
    (hkeyb : IsBytes key) (hblock : block.length = 16) (hblockb : IsBytes block) :
    (aesEncryptBlock key block).length = 16 ∧ IsBytes (aesEncryptBlock key block) := by
  have h14 := roundKey_spec key hkey hkeyb 14 (by omega)
  have hst := aesRounds13_block key block hkey hkeyb hblock hblockb
  unfold aesEncryptBlock
  simp only []
  refine ⟨?_, xorBytes_bytes _ _ (shiftRows_bytes _ (isBytes_map_subByte _)) h14.2⟩
  rw [xorBytes_length, shiftRows_length, List.length_map, h14.1, hst.1]
  rfl

/-- The inverse cipher of AES-256 undoes the cipher, for a 32-byte key and a
16-byte block. -/
theorem aesDecryptBlock_aesEncryptBlock (key block : List Nat) (hkey : key.length = 32)
    (hkeyb : IsBytes key) (hblock : block.length = 16) (hblockb : IsBytes block) :
    aesDecryptBlock key (aesEncryptBlock key block) = block := by
  have h0 := roundKey_spec key hkey hkeyb 0 (by omega)
  have h14 := roundKey_spec key hkey hkeyb 14 (by omega)
  have hst := aesRounds13_block key block hkey hkeyb hblock hblockb
  have hinv := aesInvRounds_aesRounds (expandKey 52 key) 13 1
    (xorBytes block (roundKey (expandKey 52 key) 0))
    (fun i _ hi2 => roundKey_spec key hkey hkeyb i (by omega))
    (by rw [xorBytes_length, hblock, h0.1]; rfl) (xorBytes_bytes _ _ hblockb h0.2)
  unfold aesDecryptBlock aesEncryptBlock
  simp only []
  rw [xorBytes_cancel _ _ (by rw [shiftRows_length, List.length_map, hst.1, h14.1]),
    invShiftRows_shiftRows, map_invSubByte_subByte _ hst.2]
  have h13 : 1 + 13 - 1 = 13 := rfl
  rw [h13] at hinv
  rw [hinv, xorBytes_cancel _ _ (by rw [hblock, h0.1])]

/-! ## SHA-256: a digest has 32 bytes -/

theorem sha256Round_length (s : List Nat) (kw : Nat × Nat) :
    (sha256Round s kw).length = s.length := by
  unfold sha256Round
  split <;> rfl

theorem sha256Compress_length (h block : List Nat) : (sha256Compress h block).length = h.length := by
  unfold sha256Compress
  simp only []
  have : ∀ (l : List (Nat × Nat)) (s : List Nat),
      (l.foldl sha256Round s).length = s.length := by
    intro l
    induction l with
    | nil => intro s; rfl
    | cons kw l ih =>
      intro s
      rw [List.foldl_cons, ih, sha256Round_length]
  rw [List.length_zipWith, this]
  simp

theorem sha256Blocks_length (n : Nat) (h data : List Nat) :
    (sha256Blocks n h data).length = h.length := by
  induction n generalizing h data with
  | zero => rfl
  | succ n ih => rw [sha256Blocks, ih, sha256Compress_length]

theorem flatMap_wordToBytes_length (ws : List Nat) :
    (ws.flatMap wordToBytes).length = 4 * ws.length := by
  induction ws with
  | nil => rfl
  | cons w ws ih =>
    rw [List.flatMap_cons, List.length_append, ih]
    simp [wordToBytes]
    omega

theorem sha256_length (msg : List Nat) : (sha256 msg).length = 32 := by
  unfold sha256
  rw [flatMap_wordToBytes_length, sha256Blocks_length]
  rfl

theorem sha256_bytes (msg : List Nat) : IsBytes (sha256 msg) := by
  intro b hb
  unfold sha256 at hb
  obtain ⟨w, _, hw⟩ := List.mem_flatMap.mp hb
  simp only [wordToBytes, List.mem_cons, List.mem_singleton, List.not_mem_nil, or_false] at hw
  rcases hw with rfl | rfl | rfl | rfl <;> exact Nat.mod_lt _ (by decide)

/-! ## `encrypt` and `decrypt` -/

theorem lit_colon : lit ":" = [58] := rfl

/-- The call `createCipheriv` succeeds exactly for a 32-byte key and a 16-byte IV. -/
theorem createCipheriv_ok (key iv : List Nat) (hkey : key.length = 32) (hiv : iv.length = 16) :
    createCipheriv ALGORITHM key iv = .ok { key := key, chain := iv, buf := [], held := none } := by
  simp [createCipheriv, ALGORITHM, keySize, blockSize, hkey, hiv]

theorem createCipheriv_inv (alg : String) (key iv : List Nat) (st : CipherState)
    (h : createCipheriv alg key iv = .ok st) :
    st = { key := key, chain := iv, buf := [], held := none } ∧ iv.length = 16 := by
  unfold createCipheriv at h
  split_ifs at h with h1 h2 h3
  simp only [Except.ok.injEq] at h
  exact ⟨h.symm, by simpa [blockSize] using h3⟩

/-- The value `encrypt` returns: the hex form of the IV, a colon, the hex form
of the ciphertext of the UTF-8 bytes of the text. -/
theorem encrypt_eq (C : Crypto) (hC : C.Lawful) (text key : JSString) :
    encrypt C text key
      = .ok (hexEncode (C.randomBytes IV_LENGTH) ++ lit ":"
          ++ hexEncode (ciphertextOf C (C.sha256 (utf8Encode key)) (C.randomBytes IV_LENGTH)
              (utf8Encode text))) := by
  have hiv : (C.randomBytes IV_LENGTH).length = 16 := hC.random_length IV_LENGTH
  unfold encrypt
  simp only []
  rw [createCipheriv_ok _ _ (hC.digest_length _) hiv]
  simp only [ciphertextOf, hexEncode_append]

/-- What `decrypt` returns when the two parts it reads decode to an IV and to
the ciphertext of a well-formed text under that IV and the key. -/
theorem decrypt_of_parts (C : Crypto) (hC : C.Lawful) (input key text : JSString)
    (iv : List Nat) (seg : JSString)
    (hhead : hexDecode ((jsSplit 58 input).headD []) = iv)
    (hseg : (jsSplit 58 input).get? 1 = some seg)
    (heven : seg.length % 2 = 0)
    (hct : hexDecode seg = ciphertextOf C (C.sha256 (utf8Encode key)) iv (utf8Encode text))
    (hiv : iv.length = 16) (hivb : IsBytes iv)
    (hbytes : IsBytes (utf8Encode text)) (hwf : wellFormed text = true) :
    decrypt C input key = .ok text := by
  obtain ⟨hout, hheld, hbuf⟩ := decipherUpdate_ciphertextOf C hC (C.sha256 (utf8Encode key)) iv
    (utf8Encode text) (hC.digest_length _) (hC.digest_bytes _) hiv hivb hbytes
  have hfinal := decipherFinal_padded _ (utf8Encode text) hheld hbuf
  unfold decrypt decryptTry
  simp only [hhead, hseg]
  rw [createCipheriv_ok _ _ (hC.digest_length _) hiv]
  simp only [decipherUpdateHex, heven, ne_eq, not_true_eq_false, if_false, hct, hfinal, hout,
    List.take_append_drop, utf8Decode_utf8Encode text hwf]

/-- The UTF-8 form of a string (code units below `0x10000`) consists of bytes. -/
theorem utf8Encode_bytes_of_units (t : JSString) (h : ∀ u ∈ t, u < 0x10000) :
    IsBytes (utf8Encode t) := by
  have hrep : IsBytes replacementBytes := by
    intro b hb
    simp [replacementBytes] at hb
    omega
  induction t using utf8Encode.induct with
  | case1 => simp [utf8Encode, IsBytes]
  | case2 u hsur =>
    rw [utf8Encode, if_pos hsur]
    exact hrep
  | case3 u hsur =>
    rw [utf8Encode, if_neg hsur]
    have := h u (by simp)
    exact utf8EncodeCodePoint_bytes u (by omega)
  | case4 u v rest hpair ih =>
    rw [utf8Encode, if_pos hpair]
    simp only [Bool.and_eq_true] at hpair
    have hu := hpair.1
    have hv := hpair.2
    simp only [isHighSurrogate, isLowSurrogate, Bool.and_eq_true, decide_eq_true_eq] at hu hv
    exact isBytes_append (utf8EncodeCodePoint_bytes _ (by omega))
      (ih (fun x hx => h x (by simp [hx])))
  | case5 u v rest hpair hsur ih =>
    rw [utf8Encode, if_neg hpair, if_pos hsur]
    exact isBytes_append hrep (ih (fun x hx => h x (List.mem_cons_of_mem _ hx)))
  | case6 u v rest hpair hsur ih =>
    rw [utf8Encode, if_neg hpair, if_neg hsur]
    have := h u (by simp)
    exact isBytes_append (utf8EncodeCodePoint_bytes _ (by omega))
      (ih (fun x hx => h x (List.mem_cons_of_mem _ hx)))

/-- The code units of a well-formed string are below `0x10000`. -/
theorem wellFormed_units (t : JSString) (h : wellFormed t = true) : ∀ u ∈ t, u < 0x10000 := by
  induction t using wellFormed.induct with
  | case1 => simp
  | case2 u =>
    simp only [wellFormed, Bool.and_eq_true, decide_eq_true_eq] at h
    intro x hx
    simp only [List.mem_singleton] at hx
    subst hx
    exact h.2
  | case3 u v rest hu ih =>
    rw [wellFormed, if_pos hu] at h
    simp only [Bool.and_eq_true] at h
    have hv := h.1
    simp only [isHighSurrogate, isLowSurrogate, Bool.and_eq_true, decide_eq_true_eq] at hu hv
    intro x hx
    simp only [List.mem_cons] at hx
    rcases hx with rfl | rfl | hx
    · omega
    · omega
    · exact ih h.2 x hx
  | case4 u v rest hu ih =>
    rw [wellFormed, if_neg hu] at h
    simp only [Bool.and_eq_true, decide_eq_true_eq] at h
    intro x hx
    rcases List.mem_cons.mp hx with rfl | hx
    · exact h.1.2
    · exact ih h.2 x hx

/-- The UTF-8 form of a well-formed string consists of bytes. -/
theorem utf8Encode_bytes (t : JSString) (h : wellFormed t = true) : IsBytes (utf8Encode t) :=
  utf8Encode_bytes_of_units t (wellFormed_units t h)

/-- The stand-in for the random source returns `n` bytes. -/
theorem countingBytes_spec (n : Nat) : (countingBytes n).length = n ∧ IsBytes (countingBytes n) := by
  refine ⟨by simp [countingBytes], ?_⟩
  intro b hb
  simp only [countingBytes, List.mem_map] at hb
  obtain ⟨i, _, rfl⟩ := hb
  exact Nat.mod_lt _ (by decide)

theorem nodeCrypto_sha256 (randomBytes : Nat → List Nat) :
    (nodeCrypto randomBytes).sha256 = sha256 := rfl

theorem nodeCrypto_randomBytes (randomBytes : Nat → List Nat) :
    (nodeCrypto randomBytes).randomBytes = randomBytes := rfl

theorem nodeCrypto_encryptBlock (randomBytes : Nat → List Nat) :
    (nodeCrypto randomBytes).encryptBlock = aesEncryptBlock := by
  simp only [nodeCrypto]

theorem nodeCrypto_decryptBlock (randomBytes : Nat → List Nat) :
    (nodeCrypto randomBytes).decryptBlock = aesDecryptBlock := by
  simp only [nodeCrypto]

/-- SHA-256 and AES-256 satisfy what the program relies on, for every random
source that returns `n` bytes when asked for `n`. -/
theorem nodeCrypto_lawful (randomBytes : Nat → List Nat)
    (hrandom : ∀ n, (randomBytes n).length = n ∧ IsBytes (randomBytes n)) :
    (nodeCrypto randomBytes).Lawful where
  digest_length := by
    intro data
    rw [nodeCrypto_sha256]
    exact sha256_length data
  digest_bytes := by
    intro data
    rw [nodeCrypto_sha256]
    exact sha256_bytes data
  random_length := fun n => (hrandom n).1
  random_bytes := fun n => (hrandom n).2
  block_encrypted := by
    intro key block hkey hkeyb hblock hblockb
    rw [nodeCrypto_encryptBlock]
    exact aesEncryptBlock_block key block hkey hkeyb hblock hblockb
  block_restored := by
    intro key block hkey hkeyb hblock hblockb
    rw [nodeCrypto_encryptBlock, nodeCrypto_decryptBlock]
    exact aesDecryptBlock_aesEncryptBlock key block hkey hkeyb hblock hblockb

/-- The blob of `encrypt`, split at the colon. -/
theorem jsSplit_blob (iv ct : List Nat) (hiv : IsBytes iv)
    (tail : List JSString) (rest : JSString) (hrest : jsSplit 58 (hexEncode ct ++ rest)
      = hexEncode ct :: tail) :
    jsSplit 58 (hexEncode iv ++ lit ":" ++ hexEncode ct ++ rest)
      = hexEncode iv :: hexEncode ct :: tail := by
  rw [lit_colon, List.append_assoc, List.append_assoc, List.singleton_append,
    jsSplit_append 58 _ _ (colon_not_mem_hexEncode _ hiv), hrest]

/-- Round trip over any primitives that behave as `Crypto.Lawful` states, also
when the blob is followed by a colon and anything. -/
theorem decrypt_encrypt_of_lawful (C : Crypto) (hC : C.Lawful) (text key : JSString)
    (hwf : wellFormed text = true) :
    ∃ blob, encrypt C text key = .ok blob ∧ decrypt C blob key = .ok text ∧
      ∀ junk, decrypt C (blob ++ 58 :: junk) key = .ok text := by
  have hivl : (C.randomBytes IV_LENGTH).length = 16 := hC.random_length IV_LENGTH
  have hivb := hC.random_bytes IV_LENGTH
  have hctb := (ciphertextOf_block C hC (C.sha256 (utf8Encode key)) (C.randomBytes IV_LENGTH)
    (utf8Encode text) (hC.digest_length _) (hC.digest_bytes _) hivl hivb
    (utf8Encode_bytes text hwf)).2
  refine ⟨_, encrypt_eq C hC text key, ?_, ?_⟩
  · have hsplit := jsSplit_blob _ _ hivb [] []
      (by rw [List.append_nil]; exact jsSplit_of_not_mem 58 _ (colon_not_mem_hexEncode _ hctb))
    rw [List.append_nil] at hsplit
    refine decrypt_of_parts C hC _ key text (C.randomBytes IV_LENGTH)
      (hexEncode (ciphertextOf C (C.sha256 (utf8Encode key)) (C.randomBytes IV_LENGTH)
        (utf8Encode text))) ?_ ?_ ?_ ?_ hivl hivb (utf8Encode_bytes text hwf) hwf
    · rw [hsplit]
      exact hexDecode_hexEncode _ hivb
    · rw [hsplit]
      rfl
    · rw [hexEncode_length]
      omega
    · exact hexDecode_hexEncode _ hctb
  · intro junk
    have hsplit := jsSplit_blob _ _ hivb (jsSplit 58 junk) (58 :: junk)
      (jsSplit_append 58 _ _ (colon_not_mem_hexEncode _ hctb))
    refine decrypt_of_parts C hC _ key text (C.randomBytes IV_LENGTH)
      (hexEncode (ciphertextOf C (C.sha256 (utf8Encode key)) (C.randomBytes IV_LENGTH)
        (utf8Encode text))) ?_ ?_ ?_ ?_ hivl hivb (utf8Encode_bytes text hwf) hwf
    · rw [hsplit]
      exact hexDecode_hexEncode _ hivb
    · rw [hsplit]
      rfl
    · rw [hexEncode_length]
      omega
    · exact hexDecode_hexEncode _ hctb

/-- C1: with SHA-256 and AES-256-CBC as Node provides them, for every
passphrase `key` (of any length), every well-formed text and every nonce the
random source returns (16 bytes), `encrypt` returns a blob and `decrypt` of
that blob under the same passphrase returns exactly the text, without
throwing. -/
theorem decrypt_encrypt (randomBytes : Nat → List Nat)
    (hrandom : ∀ n, (randomBytes n).length = n ∧ IsBytes (randomBytes n))
    (text key : JSString) (hwf : wellFormed text = true) :
    ∃ blob, encrypt (nodeCrypto randomBytes) text key = .ok blob ∧
      decrypt (nodeCrypto randomBytes) blob key = .ok text := by
  obtain ⟨blob, h1, h2, _⟩ :=
    decrypt_encrypt_of_lawful _ (nodeCrypto_lawful randomBytes hrandom) text key hwf
  exact ⟨blob, h1, h2⟩

/-- C1 at a concrete input: a two-character passphrase and a text with
non-ASCII characters. -/
theorem decrypt_encrypt_witness :
    ∃ blob, encrypt (nodeCrypto countingBytes) (lit "héllo, wörld €") (lit "pw") = .ok blob ∧
      decrypt (nodeCrypto countingBytes) blob (lit "pw") = .ok (lit "héllo, wörld €") :=
  decrypt_encrypt countingBytes countingBytes_spec (lit "héllo, wörld €") (lit "pw") (by decide)

/-- Text after a second colon is ignored: `decrypt` returns the text for the
blob of `encrypt` followed by a colon and anything. -/
theorem decrypt_ignores_tail (randomBytes : Nat → List Nat)
    (hrandom : ∀ n, (randomBytes n).length = n ∧ IsBytes (randomBytes n))
    (text key junk : JSString) (hwf : wellFormed text = true) :
    ∃ blob, encrypt (nodeCrypto randomBytes) text key = .ok blob ∧
      decrypt (nodeCrypto randomBytes) (blob ++ 58 :: junk) key = .ok text := by
  obtain ⟨blob, h1, _, h3⟩ :=
    decrypt_encrypt_of_lawful _ (nodeCrypto_lawful randomBytes hrandom) text key hwf
  exact ⟨blob, h1, h3 junk⟩

set_option maxRecDepth 1000000 in
/-- C2 fails as stated: two malformed inputs that `decrypt` accepts.  With the
nonce `00 01 … 0f`, the blob of `"hi"` under the passphrase `"password"` is
`000102…0e0f:aff861…9e61`.  Followed by `:zz` (the part after the first colon
is then not valid hex), or with `zz` after the nonce (the part before the colon
is then not the hex form of 16 bytes), it is still decrypted to `"hi"`:
`split(':')` drops what follows a second colon, and hex decoding stops silently
at the first pair that is not two hex digits. -/
theorem decrypt_accepts_malformed :
    encrypt (nodeCrypto countingBytes) (lit "hi") (lit "password")
      = .ok (lit "000102030405060708090a0b0c0d0e0f:aff861afbe7431f5fce72453a8029e61") ∧
    malformedInput (lit "000102030405060708090a0b0c0d0e0f:aff861afbe7431f5fce72453a8029e61:zz")
      = true ∧
    decrypt (nodeCrypto countingBytes)
        (lit "000102030405060708090a0b0c0d0e0f:aff861afbe7431f5fce72453a8029e61:zz")
        (lit "password") = .ok (lit "hi") ∧
    malformedInput (lit "000102030405060708090a0b0c0d0e0fzz:aff861afbe7431f5fce72453a8029e61")
      = true ∧
    decrypt (nodeCrypto countingBytes)
        (lit "000102030405060708090a0b0c0d0e0fzz:aff861afbe7431f5fce72453a8029e61")
        (lit "password") = .ok (lit "hi") := by
  decide!

set_option maxRecDepth 1000000 in
/-- Why the round trip is stated for well-formed texts: an unpaired surrogate is
written as U+FFFD by the UTF-8 encoder, so the text `"\uD800"` comes back as
`"\uFFFD"`. -/
theorem decrypt_encrypt_unpaired_surrogate :
    (match encrypt (nodeCrypto countingBytes) [0xD800] (lit "password") with
      | .ok blob => decrypt (nodeCrypto countingBytes) blob (lit "password")
      | .error e => .error e) = .ok [0xFFFD] := by
  decide!

/-! ## Malformed input -/

/-- An empty ciphertext, or one whose length is not a multiple of 16, is
rejected by `final`. -/
theorem decipherFinal_error_of_length (C : Crypto) (key iv data : List Nat)
    (h : data.length % 16 ≠ 0 ∨ data = []) :
    ∃ e, decipherFinal
      (decipherUpdate C { key := key, chain := iv, buf := [], held := none } data).1
        = .error e := by
  unfold decipherUpdate
  by_cases hempty : data.isEmpty = true
  · simp only [hempty, if_true]
    exact ⟨_, rfl⟩
  · have hne : data ≠ [] := by
      intro h0
      simp [h0] at hempty
    rcases h with h | h
    · have hrest : (List.drop (blockSize * (([] ++ data).length / blockSize)) ([] ++ data)).isEmpty
          = false := by
        have hlen : 0 < (List.drop (blockSize * (([] ++ data).length / blockSize))
            ([] ++ data)).length := by
          simp only [List.nil_append, List.length_drop, blockSize]
          have := Nat.mul_div_le data.length 16
          omega
        cases hd : List.drop (blockSize * (([] ++ data).length / blockSize)) ([] ++ data) with
        | nil => rw [hd] at hlen; simp at hlen
        | cons a l => rfl
      simp only [hempty, hrest, Bool.false_eq_true, if_false]
      exact ⟨_, rfl⟩
    · exact absurd h hne

/-- C2, amended: `decrypt` fails, with its one error, for every passphrase and
every input that has no colon; or whose part before the first colon does not
decode (pairs of hex digits up to the first pair that is not such a pair) to
exactly 16 bytes; or whose part between the first and the second colon (up to
the end when there is no second colon) has odd length, or decodes to no byte
at all or to a number of bytes that is not a multiple of 16.  It needs nothing
from the primitives. -/
theorem decrypt_rejects (C : Crypto) (text key : JSString)
    (h : 58 ∉ text ∨ (hexDecode (beforeColon text)).length ≠ 16 ∨
      (secondPart text).length % 2 = 1 ∨
      (hexDecode (secondPart text)).length % 16 ≠ 0 ∨ hexDecode (secondPart text) = []) :
    decrypt C text key = .error decryptionFailed := by
  have key_fact : ∃ e, decryptTry C text key = .error e := by
    unfold decryptTry
    simp only [jsSplit_head, jsSplit_second]
    cases hcreate : createCipheriv ALGORITHM (C.sha256 (utf8Encode key))
        (hexDecode (beforeColon text)) with
    | error e => exact ⟨e, rfl⟩
    | ok st =>
      obtain ⟨hst, hiv⟩ := createCipheriv_inv _ _ _ _ hcreate
      subst hst
      simp only []
      by_cases hcolon : 58 ∈ text
      · simp only [hcolon, if_true, decipherUpdateHex]
        by_cases hodd : (secondPart text).length % 2 = 0
        · simp only [hodd, ne_eq, not_true_eq_false, if_false]
          rcases h with h | h | h | h
          · exact absurd hcolon h
          · exact absurd hiv h
          · omega
          · obtain ⟨e, he⟩ := decipherFinal_error_of_length C (C.sha256 (utf8Encode key))
              (hexDecode (beforeColon text)) (hexDecode (secondPart text)) h
            exact ⟨e, by rw [he]⟩
        · simp only [hodd, ne_eq, not_false_eq_true, if_true]
          exact ⟨_, rfl⟩
      · simp only [hcolon, if_false, decipherUpdateHex]
        exact ⟨_, rfl⟩
  obtain ⟨e, he⟩ := key_fact
  unfold decrypt
  rw [he]

/-- C2, amended, at concrete inputs: a text without a colon is rejected. -/
theorem decrypt_rejects_witness :
    decrypt (nodeCrypto countingBytes) (lit "00112233445566778899aabbccddeeff") (lit "password")
      = .error decryptionFailed :=
  decrypt_rejects (nodeCrypto countingBytes) (lit "00112233445566778899aabbccddeeff")
    (lit "password") (Or.inl (by decide))

/-! ## The serialized form -/

/-- The serialized form over any primitives that behave as `Crypto.Lawful` states. -/
theorem encrypt_format_of_lawful (C : Crypto) (hC : C.Lawful) (text key : JSString)
    (hbytes : IsBytes (utf8Encode text)) :
    ∃ ct : List Nat,
      encrypt C text key
        = .ok (hexEncode (C.randomBytes IV_LENGTH) ++ lit ":" ++ hexEncode ct) ∧
      IV_LENGTH = blockSize ∧
      (C.randomBytes IV_LENGTH).length = 16 ∧
      (hexEncode (C.randomBytes IV_LENGTH)).length = 32 ∧
      (∀ c ∈ hexEncode (C.randomBytes IV_LENGTH), isLowerHexDigit c = true) ∧
      ct.length = 16 * ((utf8Encode text).length / 16 + 1) ∧
      (hexEncode ct).length = 2 * ct.length ∧
      (∀ c ∈ hexEncode ct, isLowerHexDigit c = true) ∧
      (hexEncode (C.randomBytes IV_LENGTH) ++ lit ":" ++ hexEncode ct).count 58 = 1 ∧
      (hexEncode (C.randomBytes IV_LENGTH) ++ lit ":" ++ hexEncode ct).get? 32 = some 58 := by
  have hivl : (C.randomBytes IV_LENGTH).length = 16 := hC.random_length IV_LENGTH
  have hivb := hC.random_bytes IV_LENGTH
  have hct := ciphertextOf_block C hC (C.sha256 (utf8Encode key)) (C.randomBytes IV_LENGTH)
    (utf8Encode text) (hC.digest_length _) (hC.digest_bytes _) hivl hivb hbytes
  have hhex : (hexEncode (C.randomBytes IV_LENGTH)).length = 32 := by
    rw [hexEncode_length, hivl]
  refine ⟨ciphertextOf C (C.sha256 (utf8Encode key)) (C.randomBytes IV_LENGTH) (utf8Encode text),
    encrypt_eq C hC text key, rfl, hivl, hhex, hexEncode_lower _ hivb,
    hct.1, hexEncode_length _, hexEncode_lower _ hct.2, ?_, ?_⟩
  · rw [List.count_append, List.count_append,
      List.count_eq_zero_of_not_mem (colon_not_mem_hexEncode _ hivb),
      List.count_eq_zero_of_not_mem (colon_not_mem_hexEncode _ hct.2)]
    rfl
  · rw [List.append_assoc, List.get?_eq_getElem?, List.getElem?_append_right (by rw [hhex]), hhex,
      lit_colon]
    simp

/-- C10: with SHA-256 and AES-256-CBC as Node provides them, for every text
(code units below `0x10000`), passphrase and nonce, `encrypt` returns the hex
form of the nonce — the `IV_LENGTH = 16` bytes of `randomBytes`, which is the
block (IV) size of the cipher, 32 lowercase hex digits —, one colon, and the
lowercase hex form of a ciphertext of `16 * (n / 16 + 1)` bytes, `n` the number
of UTF-8 bytes of the text.  The colon is at index 32 and is the only one. -/
theorem encrypt_format (randomBytes : Nat → List Nat)
    (hrandom : ∀ n, (randomBytes n).length = n ∧ IsBytes (randomBytes n))
    (text key : JSString) (htext : ∀ u ∈ text, u < 0x10000) :
    ∃ ct : List Nat,
      encrypt (nodeCrypto randomBytes) text key
        = .ok (hexEncode (randomBytes IV_LENGTH) ++ lit ":" ++ hexEncode ct) ∧
      IV_LENGTH = blockSize ∧
      (randomBytes IV_LENGTH).length = 16 ∧
      (hexEncode (randomBytes IV_LENGTH)).length = 32 ∧
      (∀ c ∈ hexEncode (randomBytes IV_LENGTH), isLowerHexDigit c = true) ∧
      ct.length = 16 * ((utf8Encode text).length / 16 + 1) ∧
      (hexEncode ct).length = 2 * ct.length ∧
      (∀ c ∈ hexEncode ct, isLowerHexDigit c = true) ∧
      (hexEncode (randomBytes IV_LENGTH) ++ lit ":" ++ hexEncode ct).count 58 = 1 ∧
      (hexEncode (randomBytes IV_LENGTH) ++ lit ":" ++ hexEncode ct).get? 32 = some 58 :=
  encrypt_format_of_lawful (nodeCrypto randomBytes) (nodeCrypto_lawful randomBytes hrandom)
    text key (utf8Encode_bytes_of_units text htext)

/-- C10 at a concrete input. -/
theorem encrypt_format_witness :
    ∃ ct : List Nat,
      encrypt (nodeCrypto countingBytes) (lit "hi") (lit "password")
        = .ok (hexEncode (countingBytes IV_LENGTH) ++ lit ":" ++ hexEncode ct) ∧
      IV_LENGTH = blockSize ∧
      (countingBytes IV_LENGTH).length = 16 ∧
      (hexEncode (countingBytes IV_LENGTH)).length = 32 ∧
      (∀ c ∈ hexEncode (countingBytes IV_LENGTH), isLowerHexDigit c = true) ∧
      ct.length = 16 * ((utf8Encode (lit "hi")).length / 16 + 1) ∧
      (hexEncode ct).length = 2 * ct.length ∧
      (∀ c ∈ hexEncode ct, isLowerHexDigit c = true) ∧
      (hexEncode (countingBytes IV_LENGTH) ++ lit ":" ++ hexEncode ct).count 58 = 1 ∧
      (hexEncode (countingBytes IV_LENGTH) ++ lit ":" ++ hexEncode ct).get? 32 = some 58 :=
  encrypt_format countingBytes countingBytes_spec (lit "hi") (lit "password") (by decide)

end WebScraper
